import Mathlib

/-!
Verification development for the graph-maker repository (src/src/App.tsx).

Modelling conventions (shallow embedding):
* Text is modelled as `List Char` (`Str`); the JavaScript string operations
  used by the source (`split`, `trim`, `join`, template literals) are defined
  below over char lists with JS semantics.
* JavaScript numbers are modelled by `JSNum`: exact rationals plus `NaN` and
  the two infinities.  Arithmetic follows JS semantics on these values
  (IEEE-754 rounding of finite values is not modelled; every claim below
  only depends on exact values).
* JavaScript `Map` objects are modelled as association lists with
  insertion-order iteration, in-place value update on `set` of an existing
  key, and append on `set` of a fresh key (`jsGet` / `jsSet`).
* The recursive depth traversal of the source is embedded with explicit
  fuel; a sufficiency theorem shows the fuel bound is never reached.
-/

set_option autoImplicit false

abbrev Str := List Char

/-- JS whitespace characters relevant to `trim` / `parseFloat` (ASCII subset). -/
def isJsWs (c : Char) : Bool :=
  c == ' ' || c == '\t' || c == '\n' || c == '\r' || c == '\x0b' || c == '\x0c'

/-- JS `String.prototype.trim`. -/
def trimStr (s : Str) : Str :=
  ((s.dropWhile isJsWs).reverse.dropWhile isJsWs).reverse

/-- JS `String.prototype.split` with a single-character separator. -/
def splitOnChar (sep : Char) : Str → List Str
  | [] => [[]]
  | c :: rest =>
    if c = sep then [] :: splitOnChar sep rest
    else
      match splitOnChar sep rest with
      | [] => [[c]]
      | p :: ps => (c :: p) :: ps

def digitChar (d : ℕ) : Char := Char.ofNat (48 + d)

def isDigitChar (c : Char) : Bool := 48 ≤ c.toNat && c.toNat ≤ 57

def digitVal (c : Char) : ℕ := c.toNat - 48

def digitsToNat (ds : Str) : ℕ := ds.foldl (fun a c => a * 10 + digitVal c) 0

/-- Decimal digit accumulation (structural fuel recursion, in the style of
`Nat.toDigitsCore`); the fuel used by `natStr` is always sufficient. -/
def natStrCore : ℕ → ℕ → Str → Str
  | 0, _, acc => acc
  | fuel + 1, n, acc =>
    if n < 10 then digitChar n :: acc
    else natStrCore fuel (n / 10) (digitChar (n % 10) :: acc)

/-- Decimal rendering of a natural number (most significant digit first). -/
def natStr (n : ℕ) : Str := natStrCore (n + 1) n []

/-- Decimal rendering of an integer, as JS renders integral numbers. -/
def intStr (z : ℤ) : Str :=
  if z < 0 then '-' :: natStr (-z).toNat else natStr z.toNat

/-- A JavaScript number: `NaN`, the infinities, or a finite value
(modelled as an exact rational). -/
inductive JSNum where
  | nan
  | posInf
  | negInf
  | fin (q : ℚ)
deriving DecidableEq

namespace JSNum

/-- JS addition. -/
def add : JSNum → JSNum → JSNum
  | nan, _ => nan
  | _, nan => nan
  | posInf, negInf => nan
  | negInf, posInf => nan
  | posInf, _ => posInf
  | _, posInf => posInf
  | negInf, _ => negInf
  | _, negInf => negInf
  | fin a, fin b => fin (a + b)

/-- JS unary minus. -/
def neg : JSNum → JSNum
  | nan => nan
  | posInf => negInf
  | negInf => posInf
  | fin q => fin (-q)

/-- JS subtraction. -/
def sub (a b : JSNum) : JSNum := add a (neg b)

/-- JS division by two (used for midpoints). -/
def half : JSNum → JSNum
  | nan => nan
  | posInf => posInf
  | negInf => negInf
  | fin q => fin (q / 2)

/-- JS `Math.round`: for finite values, floor of `x + 1/2`. -/
def roundJs : JSNum → JSNum
  | nan => nan
  | posInf => posInf
  | negInf => negInf
  | fin q => fin ((⌊q + 1/2⌋ : ℤ) : ℚ)

/-- JS `Math.abs`. -/
def absJs : JSNum → JSNum
  | nan => nan
  | posInf => posInf
  | negInf => posInf
  | fin q => fin |q|

/-- JS `<` comparison (false whenever an operand is `NaN`). -/
def ltB : JSNum → JSNum → Bool
  | nan, _ => false
  | _, nan => false
  | negInf, negInf => false
  | negInf, _ => true
  | _, negInf => false
  | posInf, _ => false
  | fin _, posInf => true
  | fin a, fin b => decide (a < b)

/-- JS `Math.min` of two values (`NaN` propagates). -/
def min2 : JSNum → JSNum → JSNum
  | nan, _ => nan
  | _, nan => nan
  | negInf, _ => negInf
  | _, negInf => negInf
  | posInf, b => b
  | a, posInf => a
  | fin a, fin b => fin (min a b)

def isNaN : JSNum → Bool
  | nan => true
  | _ => false

end JSNum

/-- JS number-to-string conversion as used in template literals.  In this
development it is only ever applied to `Math.round` results, i.e. to
integral or special values; the non-integral branch (rendered here with a
slash) is provably unreachable at every call site. -/
def numToStr : JSNum → Str
  | JSNum.nan => "NaN".toList
  | JSNum.posInf => "Infinity".toList
  | JSNum.negInf => '-' :: "Infinity".toList
  | JSNum.fin q => if q.den = 1 then intStr q.num else intStr q.num ++ '/' :: natStr q.den

/-- JS `parseFloat`: skips leading whitespace, accepts an optional sign,
the literal `Infinity`, or a decimal mantissa with optional exponent; the
longest valid prefix is converted and anything else yields `NaN`. -/
def parseFloat (s : Str) : JSNum :=
  let s1 := s.dropWhile isJsWs
  let neg : Bool := s1.headD ' ' = '-'
  let s2 := if s1.headD ' ' = '-' ∨ s1.headD ' ' = '+' then s1.tail else s1
  if "Infinity".toList.isPrefixOf s2 then
    if neg then JSNum.negInf else JSNum.posInf
  else
    let ip := s2.takeWhile isDigitChar
    let r1 := s2.drop ip.length
    let fp := if r1.headD ' ' = '.' then r1.tail.takeWhile isDigitChar else []
    let r2 := if r1.headD ' ' = '.' then r1.tail.drop fp.length else r1
    if ip.isEmpty && fp.isEmpty then JSNum.nan
    else
      let mant : ℚ := (digitsToNat ip : ℚ) + (digitsToNat fp : ℚ) / (10 : ℚ) ^ fp.length
      let e : ℤ :=
        if r2.headD ' ' = 'e' ∨ r2.headD ' ' = 'E' then
          let t := r2.tail
          let eneg : Bool := t.headD ' ' = '-'
          let t2 := if t.headD ' ' = '-' ∨ t.headD ' ' = '+' then t.tail else t
          let ed := t2.takeWhile isDigitChar
          if ed.isEmpty then 0
          else if eneg then -(digitsToNat ed : ℤ) else (digitsToNat ed : ℤ)
        else 0
      let v : ℚ := mant * (10 : ℚ) ^ e
      JSNum.fin (if neg then -v else v)

/-- JS `parseInt` with radix 10. -/
def parseIntJS (s : Str) : JSNum :=
  let s1 := s.dropWhile isJsWs
  let neg : Bool := s1.headD ' ' = '-'
  let s2 := if s1.headD ' ' = '-' ∨ s1.headD ' ' = '+' then s1.tail else s1
  let ds := s2.takeWhile isDigitChar
  if ds.isEmpty then JSNum.nan
  else JSNum.fin (if neg then -(digitsToNat ds : ℚ) else (digitsToNat ds : ℚ))

section JsMap

variable {K V : Type} [DecidableEq K]

/-- JS `Map.prototype.get`. -/
def jsGet : List (K × V) → K → Option V
  | [], _ => none
  | p :: m, k => if p.1 = k then some p.2 else jsGet m k

/-- JS `Map.prototype.set`: updates an existing key in place (keeping its
iteration position) or appends a fresh key at the end. -/
def jsSet : List (K × V) → K → V → List (K × V)
  | [], k, v => [(k, v)]
  | p :: m, k, v => if p.1 = k then (k, v) :: m else p :: jsSet m k v

/-- The `if (!m.has(k)) m.set(k, []); m.get(k)!.push(v)` grouping idiom of the
source, applied to a whole list of key/value pairs. -/
def jsGroup (ps : List (K × V)) : List (K × List V) :=
  ps.foldl (fun m kv => jsSet m kv.1 ((jsGet m kv.1).getD [] ++ [kv.2])) []

@[simp] theorem jsGet_nil (k : K) : jsGet ([] : List (K × V)) k = none := rfl

theorem jsGet_jsSet_self (m : List (K × V)) (k : K) (v : V) :
    jsGet (jsSet m k v) k = some v := by
  induction m with
  | nil => simp [jsSet, jsGet]
  | cons p m ih =>
    by_cases h : p.1 = k
    · simp [jsSet, jsGet, h]
    · simp [jsSet, jsGet, h, ih]

theorem jsGet_jsSet_ne (m : List (K × V)) {k k' : K} (v : V) (h : k' ≠ k) :
    jsGet (jsSet m k v) k' = jsGet m k' := by
  have h2 : ¬ k = k' := fun hh => h hh.symm
  induction m with
  | nil => simp [jsSet, jsGet, h2]
  | cons p m ih =>
    by_cases hp : p.1 = k
    · have hpk' : ¬ p.1 = k' := by rw [hp]; exact h2
      simp [jsSet, jsGet, hp, h2, hpk']
    · simp [jsSet, jsGet, hp, ih]

theorem jsGet_foldl_group (ps : List (K × V)) (k : K) :
    ∀ m : List (K × List V),
      jsGet (ps.foldl (fun m kv => jsSet m kv.1 ((jsGet m kv.1).getD [] ++ [kv.2])) m) k =
        (if (ps.filter (fun p => p.1 = k)).isEmpty then jsGet m k
         else some ((jsGet m k).getD [] ++ ((ps.filter (fun p => p.1 = k)).map (·.2)))) := by
  induction ps with
  | nil => intro m; simp
  | cons p ps ih =>
    intro m
    by_cases h : p.1 = k
    · have hmem : jsGet (jsSet m p.1 ((jsGet m p.1).getD [] ++ [p.2])) k =
          some ((jsGet m k).getD [] ++ [p.2]) := by
        rw [h]; exact jsGet_jsSet_self m k _
      rw [List.foldl_cons, ih, hmem, List.filter_cons]
      by_cases hps : (ps.filter (fun q => q.1 = k)).isEmpty
      · simp [h, hps, List.isEmpty_iff.mp hps]
      · simp [h, hps, List.append_assoc]
    · have hne : jsGet (jsSet m p.1 ((jsGet m p.1).getD [] ++ [p.2])) k = jsGet m k :=
        jsGet_jsSet_ne m _ (fun hh => h hh.symm)
      rw [List.foldl_cons, ih, hne, List.filter_cons]
      rw [if_neg (by simp [h] : ¬ ((decide (p.1 = k)) = true))]

/-- Lookup in a grouped map: the (order-preserving) list of all values whose
key matches, or absent when there are none. -/
theorem jsGet_jsGroup (ps : List (K × V)) (k : K) :
    jsGet (jsGroup ps) k =
      (if (ps.filter (fun p => p.1 = k)).isEmpty then none
       else some ((ps.filter (fun p => p.1 = k)).map (·.2))) := by
  have h := jsGet_foldl_group ps k []
  simpa [jsGroup] using h

/-- Last-occurrence lookup in a raw pair list. -/
def lastMatch (ps : List (K × V)) (k : K) : Option V :=
  ps.foldl (fun acc p => if p.1 = k then some p.2 else acc) none

theorem foldl_lastMatch (ps : List (K × V)) (k : K) :
    ∀ acc : Option V,
      ps.foldl (fun acc p => if p.1 = k then some p.2 else acc) acc =
        ((lastMatch ps k).map some).getD acc := by
  induction ps with
  | nil => intro acc; simp [lastMatch]
  | cons p ps ih =>
    intro acc
    by_cases h : p.1 = k
    · rw [List.foldl_cons, if_pos h, ih (some p.2)]
      show _ = ((List.foldl _ (if p.1 = k then some p.2 else none) ps).map some).getD acc
      rw [if_pos h, ih (some p.2)]
      cases ps.foldl (fun acc p => if p.1 = k then some p.2 else acc) none <;> simp [lastMatch]
    · rw [List.foldl_cons, if_neg h, ih acc]
      show _ = ((List.foldl _ (if p.1 = k then some p.2 else none) ps).map some).getD acc
      rw [if_neg h]
      rfl

/-- Lookup in a map built by repeated `set`: the most recently written value
wins. -/
theorem jsGet_foldl_set (ps : List (K × V)) (k : K) :
    ∀ m : List (K × V),
      jsGet (ps.foldl (fun m p => jsSet m p.1 p.2) m) k =
        ((lastMatch ps k).map some).getD (jsGet m k) := by
  induction ps with
  | nil => intro m; simp [lastMatch]
  | cons p ps ih =>
    intro m
    by_cases h : p.1 = k
    · have hself : jsGet (jsSet m p.1 p.2) k = some p.2 := by
        rw [h]; exact jsGet_jsSet_self m k _
      rw [List.foldl_cons, ih, hself]
      show _ = ((List.foldl _ (if p.1 = k then some p.2 else none) ps).map some).getD (jsGet m k)
      rw [if_pos h, foldl_lastMatch ps k (some p.2)]
      cases lastMatch ps k <;> simp
    · have hne : jsGet (jsSet m p.1 p.2) k = jsGet m k :=
        jsGet_jsSet_ne m _ (fun hh => h hh.symm)
      rw [List.foldl_cons, ih, hne]
      show _ = ((List.foldl _ (if p.1 = k then some p.2 else none) ps).map some).getD (jsGet m k)
      rw [if_neg h]
      rfl

end JsMap

/-! ## Data model and record codec (App.tsx `parseCSV`) -/

structure TreeNodeData where
  id : Str
  label : Str
  children : List Str
  position : Option (JSNum × JSNum)
deriving DecidableEq

structure ParsedCSV where
  nodes : List TreeNodeData
deriving DecidableEq

/-- `parseFloat(xStr)` for the optional position field `x;y`. -/
def posXOf (t : Str) : JSNum :=
  parseFloat ((splitOnChar ';' t).headD [])

/-- `parseFloat(yStr)` for the optional position field; when the field has no
`;` the destructured `yStr` is `undefined` and `parseFloat` yields `NaN`. -/
def posYOf (t : Str) : JSNum :=
  match ((splitOnChar ';' t).drop 1).head? with
  | none => JSNum.nan
  | some ys => parseFloat ys

/-- Parse of the optional 4th column `x;y` (lines 195-205 of App.tsx):
the position is kept only when both coordinates are non-`NaN`. -/
def parsePos (f : Option Str) : Option (JSNum × JSNum) :=
  match f with
  | none => none
  | some f =>
    let t := trimStr f
    if t.isEmpty then none
    else if (!(posXOf t).isNaN) && (!(posYOf t).isNaN) then some (posXOf t, posYOf t)
    else none

/-- One iteration of the `parseCSV` loop: parses a single line, `none` when
the line yields fewer than two comma-separated fields (silently skipped). -/
def parseLine (line : Str) : Option TreeNodeData :=
  let parts := splitOnChar ',' line
  if parts.length < 2 then none
  else
    let id := trimStr (parts.headD [])
    let label := trimStr (parts.getD 1 [])
    let childrenStr := trimStr (parts.getD 2 [])
    let children :=
      if childrenStr.isEmpty then []
      else ((splitOnChar ';' childrenStr).map trimStr).filter (fun t => !t.isEmpty)
    some { id := id, label := label, children := children,
           position := parsePos ((parts.drop 3).head?) }

/-- App.tsx `parseCSV`. -/
def parseCSV (content : Str) : ParsedCSV :=
  { nodes := (splitOnChar '\n' (trimStr content)).filterMap parseLine }

/-! ## Layout constants and colors -/

def NODE_WIDTH : ℚ := 150
def NODE_HEIGHT : ℚ := 40
def HORIZONTAL_SPACING : ℚ := 200
def VERTICAL_SPACING : ℚ := 120
def SNAP_THRESHOLD : ℚ := 15

def COLORS : List Str :=
  ["#2563eb".toList, "#dc2626".toList, "#16a34a".toList, "#9333ea".toList,
   "#ea580c".toList, "#0891b2".toList, "#db2777".toList, "#65a30d".toList,
   "#7c3aed".toList, "#ca8a04".toList, "#0d9488".toList, "#e11d48".toList]

/-! ## Tree layout (App.tsx `calculateTreeLayout`), split into its locals -/

/-- `new Map(treeNodes.map(n => [n.id, n]))`. -/
def nodeMapOf (parsed : ParsedCSV) : List (Str × TreeNodeData) :=
  parsed.nodes.foldl (fun m n => jsSet m n.id n) []

/-- `treeNodes.forEach((node, index) => nodeColors.set(node.id, COLORS[index % COLORS.length]))`. -/
def nodeColorsOf (parsed : ParsedCSV) : List (Str × Str) :=
  parsed.nodes.enum.foldl (fun m p => jsSet m p.2.id (COLORS.getD (p.1 % COLORS.length) [])) []

/-- `treeNodes.every(n => n.position !== undefined)`. -/
def hasExplicitPositions (parsed : ParsedCSV) : Bool :=
  parsed.nodes.all (fun n => n.position.isSome)

structure FlowNode where
  id : Str
  label : Str
  children : List Str
  position : JSNum × JSNum
deriving DecidableEq

/-- Explicit-position branch of `calculateTreeLayout`: positions pass through
unchanged.  The `getD` default models the non-null assertion `node.position!`
and is unreachable when every node has a position. -/
def explicitFlowNodes (parsed : ParsedCSV) : List FlowNode :=
  parsed.nodes.map (fun n =>
    { id := n.id, label := n.label, children := n.children,
      position := n.position.getD (JSNum.nan, JSNum.nan) })

abbrev DepthMap := List (Str × ℕ)

/-- App.tsx `assignDepth`, with explicit fuel standing for the call stack of
the unbounded recursion; `none` means the fuel ran out (never happens for
the bound used below, see the sufficiency theorem).  The
`for (const childId of node.children)` loop is the fold over the children. -/
def assignDepth (nm : List (Str × TreeNodeData)) : ℕ → Str → ℕ → DepthMap → Option DepthMap
  | 0, _, _, _ => none
  | fuel + 1, nodeId, depth, depths =>
    match jsGet depths nodeId with
    | some d0 => some (if d0 < depth then jsSet depths nodeId depth else depths)
    | none =>
      let depths1 := jsSet depths nodeId depth
      match jsGet nm nodeId with
      | none => some depths1
      | some node =>
        node.children.foldl
          (fun acc c => acc.bind (fun m => assignDepth nm fuel c (depth + 1) m)) (some depths1)

/-- The children loop of `assignDepth` as a standalone function. -/
def assignDepthList (nm : List (Str × TreeNodeData)) (fuel : ℕ) (cs : List Str) (depth : ℕ)
    (depths : DepthMap) : Option DepthMap :=
  cs.foldl (fun acc c => acc.bind (fun m => assignDepth nm fuel c depth m)) (some depths)

theorem foldl_bind_none {α β : Type} (g : β → α → Option α) (cs : List β) :
    cs.foldl (fun acc c => acc.bind (fun m => g c m)) none = none := by
  induction cs with
  | nil => rfl
  | cons c rest ih => exact ih

theorem assignDepth_zero (nm : List (Str × TreeNodeData)) (nodeId : Str) (depth : ℕ)
    (depths : DepthMap) : assignDepth nm 0 nodeId depth depths = none := rfl

theorem assignDepth_succ (nm : List (Str × TreeNodeData)) (fuel : ℕ) (nodeId : Str) (depth : ℕ)
    (depths : DepthMap) :
    assignDepth nm (fuel + 1) nodeId depth depths =
      match jsGet depths nodeId with
      | some d0 => some (if d0 < depth then jsSet depths nodeId depth else depths)
      | none =>
        match jsGet nm nodeId with
        | none => some (jsSet depths nodeId depth)
        | some node =>
          assignDepthList nm fuel node.children (depth + 1) (jsSet depths nodeId depth) := rfl

theorem assignDepthList_nil (nm : List (Str × TreeNodeData)) (fuel : ℕ) (depth : ℕ)
    (depths : DepthMap) : assignDepthList nm fuel [] depth depths = some depths := rfl

theorem assignDepthList_cons (nm : List (Str × TreeNodeData)) (fuel : ℕ) (c : Str)
    (rest : List Str) (depth : ℕ) (depths : DepthMap) :
    assignDepthList nm fuel (c :: rest) depth depths =
      (assignDepth nm fuel c depth depths).bind
        (fun m => assignDepthList nm fuel rest depth m) := by
  rw [assignDepthList, List.foldl_cons]
  cases h : assignDepth nm fuel c depth depths with
  | none =>
    rw [show (some depths).bind (fun m => assignDepth nm fuel c depth m) =
        assignDepth nm fuel c depth depths from rfl, h]
    exact foldl_bind_none _ rest
  | some m =>
    rw [show (some depths).bind (fun m => assignDepth nm fuel c depth m) =
        assignDepth nm fuel c depth depths from rfl, h]
    rfl

/-- `new Set(treeNodes.flatMap(n => n.children))` membership. -/
def allChildIdsOf (parsed : ParsedCSV) : List Str :=
  (parsed.nodes.map (fun n => n.children)).flatten

/-- `treeNodes.filter(n => !allChildIds.has(n.id)).map(n => n.id)`. -/
def rootIdsOf (parsed : ParsedCSV) : List Str :=
  (parsed.nodes.filter (fun n => !(allChildIdsOf parsed).contains n.id)).map (fun n => n.id)

/-- Fuel bound: one more than the number of distinct ids that can ever be
inserted into the depth map. -/
def depthFuel (parsed : ParsedCSV) : ℕ :=
  ((parsed.nodes.map (fun n => n.id)) ++ allChildIdsOf parsed).dedup.length + 1

/-- The two depth-assignment loops of `calculateTreeLayout`: traverse from
each root, then from every still-unassigned parsed node. -/
def computeDepths (parsed : ParsedCSV) : Option DepthMap :=
  let nm := nodeMapOf parsed
  let fuel := depthFuel parsed
  let afterRoots :=
    (rootIdsOf parsed).foldl (fun acc r => acc.bind (fun m => assignDepth nm fuel r 0 m)) (some [])
  parsed.nodes.foldl
    (fun acc n => acc.bind (fun m =>
      if (jsGet m n.id).isSome then some m else assignDepth nm fuel n.id 0 m))
    afterRoots

def nodeDepthsOf (parsed : ParsedCSV) : DepthMap :=
  (computeDepths parsed).getD []

/-- `for (const [nodeId, depth] of nodeDepths) nodeLevels.get(depth).push(nodeId)`. -/
def nodeLevelsOf (parsed : ParsedCSV) : List (ℕ × List Str) :=
  jsGroup ((nodeDepthsOf parsed).map (fun p => (p.2, p.1)))

/-- Auto-layout branch of `calculateTreeLayout`: nodes positioned by depth
layer, evenly spaced and centered around x = 0. -/
def autoFlowNodes (parsed : ParsedCSV) : List FlowNode :=
  let nm := nodeMapOf parsed
  let levels := nodeLevelsOf parsed
  if levels.isEmpty then []
  else
    let maxDepth := (levels.map (fun p => p.1)).foldl max 0
    ((List.range (maxDepth + 1)).map (fun depth =>
      let nodesAtLevel := (jsGet levels depth).getD []
      let levelWidth : ℚ := nodesAtLevel.length * HORIZONTAL_SPACING
      let startX : ℚ := -levelWidth / 2 + HORIZONTAL_SPACING / 2
      nodesAtLevel.enum.filterMap (fun p =>
        (jsGet nm p.2).map (fun node =>
          { id := p.2, label := node.label, children := node.children,
            position := (JSNum.fin (startX + p.1 * HORIZONTAL_SPACING),
                         JSNum.fin (depth * VERTICAL_SPACING)) })))).flatten

/-- The node list produced by `calculateTreeLayout`. -/
def calcFlowNodes (parsed : ParsedCSV) : List FlowNode :=
  if hasExplicitPositions parsed then explicitFlowNodes parsed else autoFlowNodes parsed

/-- `nodePositions.set(n.id, { x: n.position.x + NODE_WIDTH / 2, y: n.position.y })`. -/
def nodePositionsOf (parsed : ParsedCSV) : List (Str × (JSNum × JSNum)) :=
  (calcFlowNodes parsed).foldl
    (fun m n => jsSet m n.id (JSNum.add n.position.1 (JSNum.fin (NODE_WIDTH / 2)), n.position.2)) []

/-- The template literal `` `${Math.round(sourceY)}-${Math.round(targetY)}` ``. -/
def channelKey (sourceY targetY : JSNum) : Str :=
  numToStr sourceY.roundJs ++ '-' :: numToStr targetY.roundJs

structure ChannelEdge where
  sourceX : JSNum
  targetX : JSNum
  targetId : Str
deriving DecidableEq

/-- The edge enumeration that feeds `edgesByLayers`: each parsed record with a
position contributes one entry per child that also has a position. -/
def layerEdgePairs (parsed : ParsedCSV) : List (Str × ChannelEdge) :=
  let pos := nodePositionsOf parsed
  (parsed.nodes.map (fun node =>
    match jsGet pos node.id with
    | none => []
    | some sp =>
      node.children.filterMap (fun childId =>
        (jsGet pos childId).map (fun tp =>
          (channelKey (JSNum.add sp.2 (JSNum.fin NODE_HEIGHT)) tp.2,
           { sourceX := sp.1, targetX := tp.1, targetId := childId }))))).flatten

def edgesByLayersOf (parsed : ParsedCSV) : List (Str × List ChannelEdge) :=
  jsGroup (layerEdgePairs parsed)

/-- Channel computation for one key: `key.split('-')`, `parseInt` both halves,
midpoint.  `parseInt(undefined, 10)` is `NaN`. -/
def channelValue (key : Str) : JSNum :=
  let parts := splitOnChar '-' key
  let sourceY := parseIntJS (parts.headD [])
  let targetY :=
    match (parts.drop 1).head? with
    | none => JSNum.nan
    | some t => parseIntJS t
  (JSNum.add sourceY targetY).half

/-- `for (const [key] of edgesByLayers) horizontalChannels.set(key, midpoint)`. -/
def horizontalChannelsOf (parsed : ParsedCSV) : List (Str × JSNum) :=
  (edgesByLayersOf parsed).foldl (fun m p => jsSet m p.1 (channelValue p.1)) []

/-- The edge enumeration that feeds `edgesByTarget`: entries
`{sourceX, sourceY: source bottom}` keyed by the child id. -/
def targetEdgePairs (parsed : ParsedCSV) : List (Str × (JSNum × JSNum)) :=
  let pos := nodePositionsOf parsed
  (parsed.nodes.map (fun node =>
    match jsGet pos node.id with
    | none => []
    | some sp =>
      node.children.map (fun childId =>
        (childId, (sp.1, JSNum.add sp.2 (JSNum.fin NODE_HEIGHT)))))).flatten

def edgesByTargetOf (parsed : ParsedCSV) : List (Str × List (JSNum × JSNum)) :=
  jsGroup (targetEdgePairs parsed)

/-- JS `Math.min(...)` over a list (empty spread gives `Infinity`). -/
def jsMinList (l : List JSNum) : JSNum :=
  l.foldl JSNum.min2 JSNum.posInf

/-- Shared vertical trunks: only for targets with more than one incoming edge,
trunk x = target x-center, trunk y = midpoint of min source bottom and
target top. -/
def verticalTrunksOf (parsed : ParsedCSV) : List (Str × (JSNum × JSNum)) :=
  let pos := nodePositionsOf parsed
  (edgesByTargetOf parsed).foldl
    (fun m p =>
      if 1 < p.2.length then
        match jsGet pos p.1 with
        | none => m
        | some tp =>
          jsSet m p.1 (tp.1, (JSNum.add (jsMinList (p.2.map (fun s => s.2))) tp.2).half)
      else m) []

structure FlowEdge where
  source : Str
  target : Str
deriving DecidableEq

/-- The edge list produced by `calculateTreeLayout` (one edge per child
reference, regardless of positions). -/
def flowEdgesOf (parsed : ParsedCSV) : List FlowEdge :=
  (parsed.nodes.map (fun node =>
    node.children.map (fun c => ({ source := node.id, target := c } : FlowEdge)))).flatten

/-- App.tsx `calculateMergedPath`, modelled as the list of way-points of the
emitted SVG path (the string is `M p0 L p1 ...` over these points). -/
def calculateMergedPath (sourceX sourceY targetX targetY : JSNum) (targetId : Str)
    (channels : List (Str × JSNum)) (trunks : List (Str × (JSNum × JSNum))) :
    List (JSNum × JSNum) :=
  let channelY := jsGet channels (channelKey sourceY targetY)
  let verticalTrunk := jsGet trunks targetId
  if (JSNum.sub sourceX targetX).absJs.ltB (JSNum.fin 1) then
    [(sourceX, sourceY), (targetX, targetY)]
  else
    let horizontalY := channelY.getD ((JSNum.add sourceY targetY).half)
    match verticalTrunk with
    | some trunk =>
      if (JSNum.sub trunk.1 targetX).absJs.ltB (JSNum.fin 1) then
        [(sourceX, sourceY), (sourceX, horizontalY), (trunk.1, horizontalY), (trunk.1, targetY)]
      else
        [(sourceX, sourceY), (sourceX, horizontalY), (targetX, horizontalY), (targetX, targetY)]
    | none =>
      [(sourceX, sourceY), (sourceX, horizontalY), (targetX, horizontalY), (targetX, targetY)]

/-! ## Serialization (App.tsx `serializeToCSV`) -/

def serializeToCSV (nodes : List FlowNode) (edges : List FlowEdge) : Str :=
  let childrenMap : List (Str × List Str) :=
    jsGroup (edges.map (fun e => (e.source, e.target)))
  let lines := nodes.map (fun node =>
    let children :=
      match jsGet childrenMap node.id with
      | none => []
      | some cs => List.intercalate [';'] cs
    let posStr := numToStr node.position.1.roundJs ++ ';' :: numToStr node.position.2.roundJs
    node.id ++ ',' :: node.label ++ ',' :: children ++ ',' :: posStr)
  List.intercalate ['\n'] lines

/-! ## Snap assistant (App.tsx `handleNodesChange`) -/

/-- The snapping loop applied to one position change: for every other node,
each axis is snapped independently when within `SNAP_THRESHOLD`. -/
def snapPosition (nodes : List FlowNode) (draggedId : Str) (p : JSNum × JSNum) :
    JSNum × JSNum :=
  nodes.foldl
    (fun xy node =>
      if node.id = draggedId then xy
      else
        ((if (JSNum.sub node.position.1 xy.1).absJs.ltB (JSNum.fin SNAP_THRESHOLD)
          then node.position.1 else xy.1),
         (if (JSNum.sub node.position.2 xy.2).absJs.ltB (JSNum.fin SNAP_THRESHOLD)
          then node.position.2 else xy.2)))
    p

/-- Single-axis form of the snapping loop (used to state axis independence). -/
def snapAxis (others : List JSNum) (c : JSNum) : JSNum :=
  others.foldl
    (fun acc v => if (JSNum.sub v acc).absJs.ltB (JSNum.fin SNAP_THRESHOLD) then v else acc) c

/-! ## Snap assistant lemmas -/

theorem snapPosition_axes (nodes : List FlowNode) (draggedId : Str) :
    ∀ p : JSNum × JSNum,
      snapPosition nodes draggedId p =
        (snapAxis ((nodes.filter (fun n => n.id ≠ draggedId)).map (fun n => n.position.1)) p.1,
         snapAxis ((nodes.filter (fun n => n.id ≠ draggedId)).map (fun n => n.position.2)) p.2) := by
  induction nodes with
  | nil => intro p; simp [snapPosition, snapAxis]
  | cons n ns ih =>
    intro p
    by_cases h : n.id = draggedId
    · have hd : (decide (n.id ≠ draggedId)) = false := by simp [h]
      rw [snapPosition, List.foldl_cons, if_pos h, List.filter_cons, hd]
      exact ih p
    · have hd : (decide (n.id ≠ draggedId)) = true := by simp [h]
      rw [snapPosition, List.foldl_cons, if_neg h, List.filter_cons, hd]
      show snapPosition ns draggedId _ = _
      rw [ih]
      simp [snapAxis]

theorem snapAxis_mem (others : List JSNum) :
    ∀ c : JSNum, snapAxis others c = c ∨ snapAxis others c ∈ others := by
  induction others with
  | nil => intro c; left; rfl
  | cons v vs ih =>
    intro c
    rw [snapAxis, List.foldl_cons]
    by_cases h : (JSNum.sub v c).absJs.ltB (JSNum.fin SNAP_THRESHOLD)
    · rw [if_pos h]
      rcases ih v with h1 | h1
      · right; rw [show vs.foldl _ v = snapAxis vs v from rfl, h1]; exact List.mem_cons_self v vs
      · right; exact List.mem_cons_of_mem v h1
    · rw [if_neg h]
      rcases ih c with h1 | h1
      · left; exact h1
      · right; exact List.mem_cons_of_mem v h1

theorem snapAxis_unchanged (others : List JSNum) :
    ∀ c : JSNum, (∀ v ∈ others, (JSNum.sub v c).absJs.ltB (JSNum.fin SNAP_THRESHOLD) = false) →
      snapAxis others c = c := by
  induction others with
  | nil => intro c _; rfl
  | cons v vs ih =>
    intro c h
    rw [snapAxis, List.foldl_cons]
    rw [h v (List.mem_cons_self v vs)]
    exact ih c (fun w hw => h w (List.mem_cons_of_mem v hw))

theorem snapAxis_snapped (others : List JSNum) :
    ∀ c : JSNum,
      (∃ v ∈ others, (JSNum.sub v c).absJs.ltB (JSNum.fin SNAP_THRESHOLD) = true) →
      snapAxis others c ∈ others := by
  induction others with
  | nil => intro c h; rcases h with ⟨v, hv, _⟩; cases hv
  | cons v vs ih =>
    intro c h
    rw [snapAxis, List.foldl_cons]
    by_cases hv : (JSNum.sub v c).absJs.ltB (JSNum.fin SNAP_THRESHOLD)
    · rw [if_pos hv]
      rcases snapAxis_mem vs v with h1 | h1
      · rw [show vs.foldl _ v = snapAxis vs v from rfl, h1]; exact List.mem_cons_self v vs
      · exact List.mem_cons_of_mem v h1
    · rw [if_neg hv]
      rcases h with ⟨w, hw, hwlt⟩
      rcases List.mem_cons.mp hw with rfl | hw2
      · exact absurd hwlt (by simpa using hv)
      · exact List.mem_cons_of_mem v (ih c ⟨w, hw2, hwlt⟩)

theorem ltB_sub_fin_of_close {q c : ℚ} (h : |q - c| ≤ SNAP_THRESHOLD - 1) :
    (JSNum.sub (JSNum.fin q) (JSNum.fin c)).absJs.ltB (JSNum.fin SNAP_THRESHOLD) = true := by
  have : |q - c| < SNAP_THRESHOLD := lt_of_le_of_lt h (by norm_num [SNAP_THRESHOLD])
  simp [JSNum.sub, JSNum.neg, JSNum.add, JSNum.absJs, JSNum.ltB]
  have hqc : q + -c = q - c := by ring
  rw [hqc]
  exact this

theorem ltB_sub_fin_of_far {c : ℚ} (v : JSNum)
    (h : ∀ q : ℚ, v = JSNum.fin q → SNAP_THRESHOLD + 1 ≤ |q - c|) :
    (JSNum.sub v (JSNum.fin c)).absJs.ltB (JSNum.fin SNAP_THRESHOLD) = false := by
  cases v with
  | nan => rfl
  | posInf => rfl
  | negInf => rfl
  | fin q =>
    have h16 := h q rfl
    simp [JSNum.sub, JSNum.neg, JSNum.add, JSNum.absJs, JSNum.ltB]
    have hqc : q + -c = q - c := by ring
    rw [hqc]
    have : SNAP_THRESHOLD < SNAP_THRESHOLD + 1 := by norm_num
    linarith

theorem mem_snapOthers {nodes : List FlowNode} {draggedId : Str} {v : JSNum}
    (g : FlowNode → JSNum)
    (h : v ∈ (nodes.filter (fun n => n.id ≠ draggedId)).map g) :
    ∃ n ∈ nodes, n.id ≠ draggedId ∧ g n = v := by
  rcases List.mem_map.mp h with ⟨n, hn, hg⟩
  rcases List.mem_filter.mp hn with ⟨hmem, hdec⟩
  exact ⟨n, hmem, of_decide_eq_true hdec, hg⟩

theorem snapOthers_mem {nodes : List FlowNode} {draggedId : Str} {n : FlowNode}
    (g : FlowNode → JSNum) (hmem : n ∈ nodes) (hne : n.id ≠ draggedId) :
    g n ∈ (nodes.filter (fun n => n.id ≠ draggedId)).map g :=
  List.mem_map.mpr ⟨n, List.mem_filter.mpr ⟨hmem, decide_eq_true hne⟩, rfl⟩

/-- C6: for a moving node whose candidate coordinate is within
`SNAP_THRESHOLD - 1` of another node's coordinate on an axis, the returned
coordinate on that axis is rewritten to exactly match another node's value;
when every other node is at distance `SNAP_THRESHOLD + 1` or more on that
axis, the coordinate is left unmodified; and the two axes are computed
independently of each other. -/
theorem c6_snap_thresholds (nodes : List FlowNode) (draggedId : Str) (x y : ℚ) :
    (snapPosition nodes draggedId (JSNum.fin x, JSNum.fin y) =
      (snapAxis ((nodes.filter (fun n => n.id ≠ draggedId)).map (fun n => n.position.1))
         (JSNum.fin x),
       snapAxis ((nodes.filter (fun n => n.id ≠ draggedId)).map (fun n => n.position.2))
         (JSNum.fin y)))
    ∧ ((∃ n ∈ nodes, n.id ≠ draggedId ∧
          ∃ q : ℚ, n.position.1 = JSNum.fin q ∧ |q - x| ≤ SNAP_THRESHOLD - 1) →
        ∃ n ∈ nodes, n.id ≠ draggedId ∧
          (snapPosition nodes draggedId (JSNum.fin x, JSNum.fin y)).1 = n.position.1)
    ∧ ((∀ n ∈ nodes, n.id ≠ draggedId →
          ∀ q : ℚ, n.position.1 = JSNum.fin q → SNAP_THRESHOLD + 1 ≤ |q - x|) →
        (snapPosition nodes draggedId (JSNum.fin x, JSNum.fin y)).1 = JSNum.fin x)
    ∧ ((∃ n ∈ nodes, n.id ≠ draggedId ∧
          ∃ q : ℚ, n.position.2 = JSNum.fin q ∧ |q - y| ≤ SNAP_THRESHOLD - 1) →
        ∃ n ∈ nodes, n.id ≠ draggedId ∧
          (snapPosition nodes draggedId (JSNum.fin x, JSNum.fin y)).2 = n.position.2)
    ∧ ((∀ n ∈ nodes, n.id ≠ draggedId →
          ∀ q : ℚ, n.position.2 = JSNum.fin q → SNAP_THRESHOLD + 1 ≤ |q - y|) →
        (snapPosition nodes draggedId (JSNum.fin x, JSNum.fin y)).2 = JSNum.fin y) := by
  have haxes := snapPosition_axes nodes draggedId (JSNum.fin x, JSNum.fin y)
  refine ⟨haxes, ?_, ?_, ?_, ?_⟩
  · rintro ⟨n, hn, hne, q, hq, hclose⟩
    have hsn : snapAxis ((nodes.filter (fun n => n.id ≠ draggedId)).map (fun n => n.position.1))
        (JSNum.fin x) ∈ (nodes.filter (fun n => n.id ≠ draggedId)).map (fun n => n.position.1) := by
      apply snapAxis_snapped
      refine ⟨n.position.1, snapOthers_mem _ hn hne, ?_⟩
      rw [hq]
      exact ltB_sub_fin_of_close hclose
    rcases mem_snapOthers _ hsn with ⟨n2, hn2, hne2, hg2⟩
    exact ⟨n2, hn2, hne2, by rw [haxes]; exact hg2.symm⟩
  · intro hfar
    rw [haxes]
    apply snapAxis_unchanged
    intro v hv
    rcases mem_snapOthers _ hv with ⟨n2, hn2, hne2, hg2⟩
    refine ltB_sub_fin_of_far v ?_
    intro q hq
    exact hfar n2 hn2 hne2 q (by rw [hg2]; exact hq)
  · rintro ⟨n, hn, hne, q, hq, hclose⟩
    have hsn : snapAxis ((nodes.filter (fun n => n.id ≠ draggedId)).map (fun n => n.position.2))
        (JSNum.fin y) ∈ (nodes.filter (fun n => n.id ≠ draggedId)).map (fun n => n.position.2) := by
      apply snapAxis_snapped
      refine ⟨n.position.2, snapOthers_mem _ hn hne, ?_⟩
      rw [hq]
      exact ltB_sub_fin_of_close hclose
    rcases mem_snapOthers _ hsn with ⟨n2, hn2, hne2, hg2⟩
    exact ⟨n2, hn2, hne2, by rw [haxes]; exact hg2.symm⟩
  · intro hfar
    rw [haxes]
    apply snapAxis_unchanged
    intro v hv
    rcases mem_snapOthers _ hv with ⟨n2, hn2, hne2, hg2⟩
    refine ltB_sub_fin_of_far v ?_
    intro q hq
    exact hfar n2 hn2 hne2 q (by rw [hg2]; exact hq)

/-- Concrete nodes used to instantiate the snap-threshold theorem. -/
def snapWitnessNodes : List FlowNode :=
  [⟨"a".toList, "A".toList, [], (JSNum.fin 0, JSNum.fin 0)⟩,
   ⟨"b".toList, "B".toList, [], (JSNum.fin 100, JSNum.fin 50)⟩]

theorem c6_snap_thresholds_witness :
    (∃ n ∈ snapWitnessNodes, n.id ≠ "d".toList ∧
        (snapPosition snapWitnessNodes "d".toList (JSNum.fin 10, JSNum.fin 80)).1 = n.position.1)
    ∧ (snapPosition snapWitnessNodes "d".toList (JSNum.fin 10, JSNum.fin 80)).2 = JSNum.fin 80 := by
  have h := c6_snap_thresholds snapWitnessNodes "d".toList 10 80
  refine ⟨h.2.1 ?_, h.2.2.2.2 ?_⟩
  · exact ⟨⟨"a".toList, "A".toList, [], (JSNum.fin 0, JSNum.fin 0)⟩,
      List.mem_cons_self _ _, by decide, 0, rfl, by norm_num [SNAP_THRESHOLD]⟩
  · intro n hn hne q hq
    rcases List.mem_cons.mp hn with rfl | hn2
    · cases hq; norm_num [SNAP_THRESHOLD]
    · rcases List.mem_cons.mp hn2 with rfl | hn3
      · cases hq; norm_num [SNAP_THRESHOLD]
      · cases hn3

/-- C10: each returned coordinate of a snap evaluation is either the proposed
candidate coordinate unchanged or exactly the corresponding coordinate of
some other current node; the computation is a pure function of the node
positions. -/
theorem c10_snap_result_invariant (nodes : List FlowNode) (draggedId : Str) (p : JSNum × JSNum) :
    ((snapPosition nodes draggedId p).1 = p.1 ∨
      ∃ n ∈ nodes, n.id ≠ draggedId ∧ (snapPosition nodes draggedId p).1 = n.position.1) ∧
    ((snapPosition nodes draggedId p).2 = p.2 ∨
      ∃ n ∈ nodes, n.id ≠ draggedId ∧ (snapPosition nodes draggedId p).2 = n.position.2) := by
  have haxes := snapPosition_axes nodes draggedId p
  constructor
  · rcases snapAxis_mem ((nodes.filter (fun n => n.id ≠ draggedId)).map (fun n => n.position.1))
      p.1 with h1 | h1
    · left; rw [haxes]; exact h1
    · right
      rcases mem_snapOthers _ h1 with ⟨n2, hn2, hne2, hg2⟩
      exact ⟨n2, hn2, hne2, by rw [haxes]; exact hg2.symm⟩
  · rcases snapAxis_mem ((nodes.filter (fun n => n.id ≠ draggedId)).map (fun n => n.position.2))
      p.2 with h1 | h1
    · left; rw [haxes]; exact h1
    · right
      rcases mem_snapOthers _ h1 with ⟨n2, hn2, hne2, hg2⟩
      exact ⟨n2, hn2, hne2, by rw [haxes]; exact hg2.symm⟩

/-! ## Duplicate-id resolution (C8) -/

theorem lastMatch_map {α K V : Type} [DecidableEq K] (l : List α) (key : α → K) (val : α → V)
    (k : K) :
    lastMatch (l.map (fun a => (key a, val a))) k =
      ((l.filter (fun a => key a = k)).getLast?).map val := by
  induction l with
  | nil => rfl
  | cons a l ih =>
    rw [List.map_cons, lastMatch, List.foldl_cons, foldl_lastMatch, List.filter_cons]
    by_cases h : key a = k
    · rw [if_pos h, if_pos (by simp [h])]
      rw [ih]
      cases hf : l.filter (fun a => key a = k) with
      | nil => simp [hf]
      | cons b bs =>
        simp only [hf, List.getLast?_cons_cons]
        cases hg : (b :: bs).getLast? with
        | none => exact absurd hg (by simp [List.getLast?_cons])
        | some x => simp [hg]
    · rw [if_neg h, if_neg (by simp [h])]
      rw [ih]
      cases hf : (l.filter (fun a => key a = k)).getLast? <;> simp

theorem nodeMapOf_eq_foldl_pairs (parsed : ParsedCSV) :
    nodeMapOf parsed =
      (parsed.nodes.map (fun n => (n.id, n))).foldl (fun m p => jsSet m p.1 p.2) [] := by
  rw [List.foldl_map]
  rfl

theorem nodeColorsOf_eq_foldl_pairs (parsed : ParsedCSV) :
    nodeColorsOf parsed =
      (parsed.nodes.enum.map (fun p => (p.2.id, COLORS.getD (p.1 % COLORS.length) []))).foldl
        (fun m q => jsSet m q.1 q.2) [] := by
  rw [List.foldl_map]
  rfl

/-- The id-to-node map lookup returns the last parsed record with that id. -/
theorem jsGet_nodeMapOf (parsed : ParsedCSV) (k : Str) :
    jsGet (nodeMapOf parsed) k = (parsed.nodes.filter (fun n => n.id = k)).getLast? := by
  rw [nodeMapOf_eq_foldl_pairs, jsGet_foldl_set,
    lastMatch_map parsed.nodes (fun n => n.id) (fun n => n)]
  cases (parsed.nodes.filter (fun n => n.id = k)).getLast? <;> simp

/-- The id-to-color lookup returns the palette color of the last matching
record's input index. -/
theorem jsGet_nodeColorsOf (parsed : ParsedCSV) (k : Str) :
    jsGet (nodeColorsOf parsed) k =
      ((parsed.nodes.enum.filter (fun p => p.2.id = k)).getLast?).map
        (fun p => COLORS.getD (p.1 % COLORS.length) []) := by
  rw [nodeColorsOf_eq_foldl_pairs, jsGet_foldl_set,
    lastMatch_map parsed.nodes.enum (fun p => p.2.id)
      (fun p => COLORS.getD (p.1 % COLORS.length) [])]
  cases (parsed.nodes.enum.filter (fun p => p.2.id = k)).getLast? <;> simp

/-- C8 (amended): when several parsed records share an id, the record read
LAST wins for every later id-keyed lookup: both the id-to-node map used for
depth expansion and layout, and the id-to-color assignment, return the
values derived from the last matching record. -/
theorem c8_duplicate_id_last_wins (parsed : ParsedCSV) (k : Str) :
    jsGet (nodeMapOf parsed) k = (parsed.nodes.filter (fun n => n.id = k)).getLast?
    ∧ jsGet (nodeColorsOf parsed) k =
        ((parsed.nodes.enum.filter (fun p => p.2.id = k)).getLast?).map
          (fun p => COLORS.getD (p.1 % COLORS.length) []) :=
  ⟨jsGet_nodeMapOf parsed k, jsGet_nodeColorsOf parsed k⟩

/-- C8 counterexample: for the input `0,A,1` / `0,B,2` (two records with the
same id), the id-keyed node map and color map return the data of the SECOND
record (label `B`, second palette color), not the first, so the
record-read-first-wins claim is false. -/
theorem c8_counterexample :
    (jsGet (nodeMapOf (parseCSV "0,A,1\n0,B,2".toList)) "0".toList).map (fun n => n.label) =
      some "B".toList
    ∧ jsGet (nodeColorsOf (parseCSV "0,A,1\n0,B,2".toList)) "0".toList =
        some "#dc2626".toList
    ∧ (jsGet (nodeMapOf (parseCSV "0,A,1\n0,B,2".toList)) "0".toList).map (fun n => n.label) ≠
        some "A".toList
    ∧ jsGet (nodeColorsOf (parseCSV "0,A,1\n0,B,2".toList)) "0".toList ≠
        some "#2563eb".toList := by
  refine ⟨by decide, by decide, by decide, by decide⟩

/-! ## Permissive position parsing (C7) -/

/-- C7 (amended): a record with at least two comma-separated fields always
contributes a node (no error, no record rejection); its position equals the
parse of the optional 4th field, a kept position never holds a `NaN`
coordinate, and whenever either coordinate of the 4th field parses to `NaN`
(fails to parse as a number) the position is absent.  (Values that parse to
non-finite `Infinity` are accepted, see the counterexample.) -/
theorem c7_permissive_position (line : Str)
    (h2 : 2 ≤ (splitOnChar ',' line).length) :
    ∃ node, parseLine line = some node ∧
      node.position = parsePos ((splitOnChar ',' line).drop 3).head? ∧
      (∀ x y, node.position = some (x, y) → x.isNaN = false ∧ y.isNaN = false) ∧
      (∀ f, ((splitOnChar ',' line).drop 3).head? = some f →
        ((posXOf (trimStr f)).isNaN = true ∨ (posYOf (trimStr f)).isNaN = true) →
        node.position = none) := by
  rw [parseLine]
  rw [if_neg (by omega)]
  refine ⟨_, rfl, rfl, ?_, ?_⟩
  · intro x y hxy
    rcases hf : ((splitOnChar ',' line).drop 3).head? with _ | f
    · rw [hf] at hxy; cases hxy
    · rw [hf] at hxy
      rw [parsePos] at hxy
      by_cases ht : (trimStr f).isEmpty
      · rw [if_pos ht] at hxy; cases hxy
      · rw [if_neg ht] at hxy
        by_cases hnan : (!(posXOf (trimStr f)).isNaN) && (!(posYOf (trimStr f)).isNaN)
        · rw [if_pos hnan] at hxy
          cases hxy
          have := hnan
          simp only [Bool.and_eq_true, Bool.not_eq_true'] at this
          exact this
        · rw [if_neg hnan] at hxy; cases hxy
  · intro f hf hnan
    rw [hf, parsePos]
    by_cases ht : (trimStr f).isEmpty
    · rw [if_pos ht]
    · have hcond : ((!(posXOf (trimStr f)).isNaN) && (!(posYOf (trimStr f)).isNaN)) = false := by
        rcases hnan with h | h <;> simp [h]
      rw [if_neg ht, hcond]
      simp

theorem c7_permissive_position_witness :
    2 ≤ (splitOnChar ',' "0,A,,x;1".toList).length ∧
    ∃ node, parseLine "0,A,,x;1".toList = some node ∧ node.position = none := by
  refine ⟨by decide, ?_⟩
  rcases c7_permissive_position "0,A,,x;1".toList (by decide) with ⟨node, heq, hpos, _, hnan⟩
  exact ⟨node, heq, by rw [hnan "x;1".toList (by decide) (by decide)]⟩

/-- C7 counterexample: for the record `0,A,,Infinity;0` the x-coordinate
`Infinity` does not parse as a *finite* number, yet the parsed node carries
the position `(Infinity, 0)` instead of having no position: the code only
rejects `NaN`, not non-finite values. -/
theorem c7_counterexample :
    ((parseCSV "0,A,,Infinity;0".toList).nodes.map (fun n => n.position)) =
      [some (JSNum.posInf, JSNum.fin 0)]
    ∧ some (JSNum.posInf, JSNum.fin 0) ≠ (none : Option (JSNum × JSNum)) := by
  exact ⟨by with_unfolding_all decide, by decide⟩

/-! ## Depth assignment lemmas -/

/-- Pointwise growth of a depth map: every existing entry survives with a
value at least as large. -/
def DMono (d1 d2 : DepthMap) : Prop :=
  ∀ k v, jsGet d1 k = some v → ∃ v', jsGet d2 k = some v' ∧ v ≤ v'

theorem dmono_refl (d : DepthMap) : DMono d d := fun _ v h => ⟨v, h, le_rfl⟩

theorem dmono_trans {a b c : DepthMap} (h1 : DMono a b) (h2 : DMono b c) : DMono a c := by
  intro k v h
  rcases h1 k v h with ⟨v1, hb, hle⟩
  rcases h2 k v1 hb with ⟨v2, hc, hle2⟩
  exact ⟨v2, hc, le_trans hle hle2⟩

theorem dmono_set_fresh {d : DepthMap} {k : Str} (h : jsGet d k = none) (v : ℕ) :
    DMono d (jsSet d k v) := by
  intro k' v' hv'
  by_cases hk : k' = k
  · subst hk; rw [h] at hv'; cases hv'
  · rw [jsGet_jsSet_ne d v hk]; exact ⟨v', hv', le_rfl⟩

theorem dmono_set_update {d : DepthMap} {k : Str} {d0 v : ℕ} (h : jsGet d k = some d0)
    (hle : d0 ≤ v) : DMono d (jsSet d k v) := by
  intro k' v' hv'
  by_cases hk : k' = k
  · subst hk
    rw [h] at hv'
    injection hv' with e
    subst e
    exact ⟨v, jsGet_jsSet_self d k' v, hle⟩
  · rw [jsGet_jsSet_ne d v hk]; exact ⟨v', hv', le_rfl⟩

/-- Both depth traversal functions only grow the depth map. -/
theorem depth_mono_all (nm : List (Str × TreeNodeData)) : ∀ fuel : ℕ,
    (∀ nodeId depth depths m', assignDepth nm fuel nodeId depth depths = some m' →
      DMono depths m') ∧
    (∀ cs depth depths m', assignDepthList nm fuel cs depth depths = some m' →
      DMono depths m') := by
  intro fuel
  induction fuel with
  | zero =>
    constructor
    · intro nodeId depth depths m' h
      rw [assignDepth_zero] at h
      cases h
    · intro cs depth depths m' h
      cases cs with
      | nil =>
        rw [assignDepthList_nil] at h
        injection h with e
        subst e
        exact dmono_refl _
      | cons c rest =>
        rw [assignDepthList_cons, assignDepth_zero] at h
        simp at h
  | succ fuel ih =>
    have hnode : ∀ nodeId depth depths m',
        assignDepth nm (fuel + 1) nodeId depth depths = some m' → DMono depths m' := by
      intro nodeId depth depths m' h
      rw [assignDepth_succ] at h
      cases hd : jsGet depths nodeId with
      | some d0 =>
        rw [hd] at h
        injection h with e
        subst e
        by_cases hlt : d0 < depth
        · rw [if_pos hlt]; exact dmono_set_update hd (le_of_lt hlt)
        · rw [if_neg hlt]; exact dmono_refl _
      | none =>
        rw [hd] at h
        cases hnm : jsGet nm nodeId with
        | none =>
          rw [hnm] at h
          injection h with e
          subst e
          exact dmono_set_fresh hd depth
        | some node =>
          rw [hnm] at h
          exact dmono_trans (dmono_set_fresh hd depth)
            (ih.2 node.children (depth + 1) (jsSet depths nodeId depth) m' h)
    refine ⟨hnode, ?_⟩
    intro cs
    induction cs with
    | nil =>
      intro depth depths m' h
      rw [assignDepthList_nil] at h
      injection h with e
      subst e
      exact dmono_refl _
    | cons c rest ihl =>
      intro depth depths m' h
      rw [assignDepthList_cons] at h
      cases hc : assignDepth nm (fuel + 1) c depth depths with
      | none => rw [hc] at h; simp at h
      | some d2 =>
        rw [hc] at h
        exact dmono_trans (hnode c depth depths d2 hc) (ihl depth d2 m' h)

/-- The key set of a depth map. -/
def keysOf (d : DepthMap) : Finset Str := (d.map (fun p => p.1)).toFinset

theorem jsGet_isSome_iff_mem_keys (d : DepthMap) (k : Str) :
    (jsGet d k).isSome ↔ k ∈ keysOf d := by
  induction d with
  | nil => simp [keysOf, jsGet]
  | cons p rest ih =>
    by_cases h : p.1 = k
    · simp [keysOf, jsGet, h]
    · simp only [keysOf, jsGet, h, if_neg, not_false_iff, List.map_cons, List.toFinset_cons,
        Finset.mem_insert]
      rw [ih]
      constructor
      · intro hm; exact Or.inr (by simpa [keysOf] using hm)
      · intro hm
        rcases hm with hm | hm
        · exact absurd hm.symm h
        · simpa [keysOf] using hm

theorem keysOf_jsSet (d : DepthMap) (k : Str) (v : ℕ) :
    keysOf (jsSet d k v) = insert k (keysOf d) := by
  induction d with
  | nil => simp [keysOf, jsSet]
  | cons p rest ih =>
    by_cases h : p.1 = k
    · rw [jsSet]
      simp only [h, if_pos]
      simp [keysOf, h]
    · rw [jsSet]
      simp only [h, if_neg, not_false_iff]
      simp only [keysOf, List.map_cons, List.toFinset_cons] at ih ⊢
      rw [ih, Finset.Insert.comm]

theorem dmono_keys_subset {d1 d2 : DepthMap} (h : DMono d1 d2) : keysOf d1 ⊆ keysOf d2 := by
  intro k hk
  rw [← jsGet_isSome_iff_mem_keys] at hk ⊢
  rcases Option.isSome_iff_exists.mp hk with ⟨v, hv⟩
  rcases h k v hv with ⟨v', hv', _⟩
  exact Option.isSome_iff_exists.mpr ⟨v', hv'⟩

/-- With enough fuel (more than the number of ids of `S` missing from the
map), the depth traversal never exhausts its fuel and keeps all keys in `S`. -/
theorem depth_enough (nm : List (Str × TreeNodeData)) (S : Finset Str)
    (hS : ∀ id node, jsGet nm id = some node → ∀ c ∈ node.children, c ∈ S) :
    ∀ fuel : ℕ,
    (∀ nodeId depth depths, nodeId ∈ S → keysOf depths ⊆ S →
      (S \ keysOf depths).card < fuel →
      ∃ m', assignDepth nm fuel nodeId depth depths = some m' ∧ keysOf m' ⊆ S) ∧
    (∀ cs depth depths, (∀ c ∈ cs, c ∈ S) → keysOf depths ⊆ S →
      (S \ keysOf depths).card < fuel →
      ∃ m', assignDepthList nm fuel cs depth depths = some m' ∧ keysOf m' ⊆ S) := by
  intro fuel
  induction fuel with
  | zero =>
    constructor
    · intro nodeId depth depths _ _ hcard; omega
    · intro cs depth depths _ _ hcard; omega
  | succ fuel ih =>
    have hnode : ∀ nodeId depth depths, nodeId ∈ S → keysOf depths ⊆ S →
        (S \ keysOf depths).card < fuel + 1 →
        ∃ m', assignDepth nm (fuel + 1) nodeId depth depths = some m' ∧ keysOf m' ⊆ S := by
      intro nodeId depth depths hid hsub hcard
      rw [assignDepth_succ]
      cases hd : jsGet depths nodeId with
      | some d0 =>
        refine ⟨_, rfl, ?_⟩
        by_cases hlt : d0 < depth
        · rw [if_pos hlt, keysOf_jsSet]
          exact Finset.insert_subset hid hsub
        · rw [if_neg hlt]; exact hsub
      | none =>
        have hmemdiff : nodeId ∈ S \ keysOf depths := by
          rw [Finset.mem_sdiff]
          refine ⟨hid, ?_⟩
          rw [← jsGet_isSome_iff_mem_keys, hd]
          simp
        have hkeys1 : keysOf (jsSet depths nodeId depth) = insert nodeId (keysOf depths) :=
          keysOf_jsSet depths nodeId depth
        have hsub1 : keysOf (jsSet depths nodeId depth) ⊆ S := by
          rw [hkeys1]; exact Finset.insert_subset hid hsub
        have hdiff : S \ keysOf (jsSet depths nodeId depth) = (S \ keysOf depths).erase nodeId := by
          rw [hkeys1]
          ext a
          simp only [Finset.mem_sdiff, Finset.mem_insert, Finset.mem_erase]
          tauto
        have hcard1 : (S \ keysOf (jsSet depths nodeId depth)).card < fuel := by
          rw [hdiff, Finset.card_erase_of_mem hmemdiff]
          have hpos : 0 < (S \ keysOf depths).card := Finset.card_pos.mpr ⟨nodeId, hmemdiff⟩
          omega
        cases hnm : jsGet nm nodeId with
        | none => exact ⟨_, rfl, hsub1⟩
        | some node =>
          rcases ih.2 node.children (depth + 1) (jsSet depths nodeId depth)
            (fun c hc => hS nodeId node hnm c hc) hsub1 hcard1 with ⟨m', hm', hmsub⟩
          exact ⟨m', hm', hmsub⟩
    refine ⟨hnode, ?_⟩
    intro cs
    induction cs with
    | nil =>
      intro depth depths _ hsub _
      exact ⟨depths, assignDepthList_nil nm (fuel + 1) depth depths, hsub⟩
    | cons c rest ihl =>
      intro depth depths hcs hsub hcard
      rcases hnode c depth depths (hcs c (List.mem_cons_self c rest)) hsub hcard with
        ⟨m1, hm1, hm1sub⟩
      have hmono : DMono depths m1 := (depth_mono_all nm (fuel + 1)).1 c depth depths m1 hm1
      have hcard1 : (S \ keysOf m1).card < fuel + 1 := by
        have : S \ keysOf m1 ⊆ S \ keysOf depths :=
          Finset.sdiff_subset_sdiff (le_refl S) (dmono_keys_subset hmono)
        have := Finset.card_le_card this
        omega
      rcases ihl depth m1 (fun x hx => hcs x (List.mem_cons_of_mem c hx)) hm1sub hcard1 with
        ⟨m2, hm2, hm2sub⟩
      refine ⟨m2, ?_, hm2sub⟩
      rw [assignDepthList_cons, hm1]
      exact hm2

/-- After a successful call, the visited node has an entry at least the
passed depth. -/
theorem assignDepth_self_ge (nm : List (Str × TreeNodeData)) (fuel : ℕ) (nodeId : Str)
    (depth : ℕ) (depths m' : DepthMap) (h : assignDepth nm fuel nodeId depth depths = some m') :
    ∃ v, jsGet m' nodeId = some v ∧ depth ≤ v := by
  cases fuel with
  | zero => rw [assignDepth_zero] at h; cases h
  | succ fuel =>
    rw [assignDepth_succ] at h
    cases hd : jsGet depths nodeId with
    | some d0 =>
      rw [hd] at h
      injection h with e
      subst e
      by_cases hlt : d0 < depth
      · rw [if_pos hlt]
        exact ⟨depth, jsGet_jsSet_self depths nodeId depth, le_rfl⟩
      · rw [if_neg hlt]
        exact ⟨d0, hd, by omega⟩
    | none =>
      rw [hd] at h
      have hself : jsGet (jsSet depths nodeId depth) nodeId = some depth :=
        jsGet_jsSet_self depths nodeId depth
      cases hnm : jsGet nm nodeId with
      | none =>
        rw [hnm] at h
        injection h with e
        subst e
        exact ⟨depth, hself, le_rfl⟩
      | some node =>
        rw [hnm] at h
        exact (depth_mono_all nm fuel).2 node.children (depth + 1)
          (jsSet depths nodeId depth) m' h nodeId depth hself

/-- Every child processed by the children loop ends with an entry at least
the passed depth. -/
theorem assignDepthList_each (nm : List (Str × TreeNodeData)) (fuel : ℕ) :
    ∀ (cs : List Str) (depth : ℕ) (depths m' : DepthMap),
      assignDepthList nm fuel cs depth depths = some m' →
      ∀ c ∈ cs, ∃ v, jsGet m' c = some v ∧ depth ≤ v := by
  intro cs
  induction cs with
  | nil => intro depth depths m' _ c hc; cases hc
  | cons c0 rest ih =>
    intro depth depths m' h c hc
    rw [assignDepthList_cons] at h
    cases hc0 : assignDepth nm fuel c0 depth depths with
    | none => rw [hc0] at h; simp at h
    | some m1 =>
      rw [hc0] at h
      rcases List.mem_cons.mp hc with rfl | hcr
      · rcases assignDepth_self_ge nm fuel c depth depths m1 hc0 with ⟨v, hv, hvle⟩
        rcases (depth_mono_all nm fuel).2 rest depth m1 m' h c v hv with ⟨v', hv', hle'⟩
        exact ⟨v', hv', le_trans hvle hle'⟩
      · exact ih depth m1 m' h c hcr

/-! ## The depth pipeline: termination and coverage -/

theorem mem_of_getLast?_eq {α : Type} {l : List α} {a : α} (h : l.getLast? = some a) :
    a ∈ l := by
  induction l with
  | nil => cases h
  | cons b bs ih =>
    cases bs with
    | nil =>
      simp only [List.getLast?_singleton] at h
      injection h with e
      subst e
      exact List.mem_cons_self _ _
    | cons c cs =>
      rw [List.getLast?_cons_cons] at h
      exact List.mem_cons_of_mem b (ih h)

theorem parsedNode_of_nodeMap {parsed : ParsedCSV} {id : Str} {node : TreeNodeData}
    (h : jsGet (nodeMapOf parsed) id = some node) : node ∈ parsed.nodes ∧ node.id = id := by
  rw [jsGet_nodeMapOf] at h
  have hmem := mem_of_getLast?_eq h
  rcases List.mem_filter.mp hmem with ⟨hm, hd⟩
  exact ⟨hm, of_decide_eq_true hd⟩

/-- The finite universe of ids that can ever enter the depth map. -/
def SOf (parsed : ParsedCSV) : Finset Str :=
  ((parsed.nodes.map (fun n => n.id)) ++ allChildIdsOf parsed).toFinset

theorem id_mem_SOf {parsed : ParsedCSV} {n : TreeNodeData} (h : n ∈ parsed.nodes) :
    n.id ∈ SOf parsed := by
  rw [SOf, List.toFinset_append, Finset.mem_union]
  exact Or.inl (List.mem_toFinset.mpr (List.mem_map.mpr ⟨n, h, rfl⟩))

theorem children_mem_SOf (parsed : ParsedCSV) :
    ∀ id node, jsGet (nodeMapOf parsed) id = some node → ∀ c ∈ node.children, c ∈ SOf parsed := by
  intro id node h c hc
  rcases parsedNode_of_nodeMap h with ⟨hmem, _⟩
  rw [SOf, List.toFinset_append, Finset.mem_union]
  refine Or.inr (List.mem_toFinset.mpr ?_)
  rw [allChildIdsOf]
  exact List.mem_flatten.mpr ⟨node.children, List.mem_map.mpr ⟨node, hmem, rfl⟩, hc⟩

theorem root_mem_SOf {parsed : ParsedCSV} {r : Str} (h : r ∈ rootIdsOf parsed) :
    r ∈ SOf parsed := by
  rw [rootIdsOf] at h
  rcases List.mem_map.mp h with ⟨n, hn, he⟩
  subst he
  exact id_mem_SOf (List.mem_of_mem_filter hn)

theorem card_SOf_lt_depthFuel (parsed : ParsedCSV) : (SOf parsed).card < depthFuel parsed := by
  rw [SOf, depthFuel, List.card_toFinset]
  omega

theorem depth_fold_roots {nm : List (Str × TreeNodeData)} {S : Finset Str}
    (hS : ∀ id node, jsGet nm id = some node → ∀ c ∈ node.children, c ∈ S)
    {fuel : ℕ} (hfuel : S.card < fuel) :
    ∀ (rs : List Str), (∀ r ∈ rs, r ∈ S) → ∀ m0, keysOf m0 ⊆ S →
      ∃ m1, rs.foldl (fun acc r => acc.bind (fun m => assignDepth nm fuel r 0 m)) (some m0) =
          some m1 ∧ keysOf m1 ⊆ S ∧ DMono m0 m1 := by
  intro rs
  induction rs with
  | nil => intro _ m0 hsub; exact ⟨m0, rfl, hsub, dmono_refl m0⟩
  | cons r rest ih =>
    intro hrs m0 hsub
    have hcard : (S \ keysOf m0).card < fuel :=
      lt_of_le_of_lt (Finset.card_le_card (Finset.sdiff_subset)) hfuel
    rcases (depth_enough nm S hS fuel).1 r 0 m0 (hrs r (List.mem_cons_self r rest)) hsub hcard
      with ⟨m1, hm1, hm1sub⟩
    rcases ih (fun x hx => hrs x (List.mem_cons_of_mem r hx)) m1 hm1sub with ⟨m2, hm2, hsub2, hmono2⟩
    refine ⟨m2, ?_, hsub2, ?_⟩
    · rw [List.foldl_cons]
      rw [show (some m0).bind (fun m => assignDepth nm fuel r 0 m) =
          assignDepth nm fuel r 0 m0 from rfl, hm1]
      exact hm2
    · exact dmono_trans ((depth_mono_all nm fuel).1 r 0 m0 m1 hm1) hmono2

theorem depth_fold_fallback {nm : List (Str × TreeNodeData)} {S : Finset Str}
    (hS : ∀ id node, jsGet nm id = some node → ∀ c ∈ node.children, c ∈ S)
    {fuel : ℕ} (hfuel : S.card < fuel) :
    ∀ (ns : List TreeNodeData), (∀ n ∈ ns, n.id ∈ S) → ∀ m0, keysOf m0 ⊆ S →
      ∃ m1, ns.foldl (fun acc n => acc.bind (fun m =>
              if (jsGet m n.id).isSome then some m else assignDepth nm fuel n.id 0 m))
            (some m0) = some m1 ∧ keysOf m1 ⊆ S ∧ DMono m0 m1 ∧
            ∀ n ∈ ns, (jsGet m1 n.id).isSome := by
  intro ns
  induction ns with
  | nil => intro _ m0 hsub; exact ⟨m0, rfl, hsub, dmono_refl m0, by intro n hn; cases hn⟩
  | cons n rest ih =>
    intro hns m0 hsub
    by_cases hp : (jsGet m0 n.id).isSome
    · rcases ih (fun x hx => hns x (List.mem_cons_of_mem n hx)) m0 hsub with
        ⟨m2, hm2, hsub2, hmono2, hpres2⟩
      refine ⟨m2, ?_, hsub2, hmono2, ?_⟩
      · rw [List.foldl_cons]
        rw [show (some m0).bind (fun m =>
            if (jsGet m n.id).isSome then some m else assignDepth nm fuel n.id 0 m) =
            (if (jsGet m0 n.id).isSome then some m0 else assignDepth nm fuel n.id 0 m0) from rfl,
          if_pos hp]
        exact hm2
      · intro x hx
        rcases List.mem_cons.mp hx with rfl | hxr
        · rcases Option.isSome_iff_exists.mp hp with ⟨v, hv⟩
          rcases hmono2 x.id v hv with ⟨v', hv', _⟩
          exact Option.isSome_iff_exists.mpr ⟨v', hv'⟩
        · exact hpres2 x hxr
    · have hcard : (S \ keysOf m0).card < fuel :=
        lt_of_le_of_lt (Finset.card_le_card (Finset.sdiff_subset)) hfuel
      rcases (depth_enough nm S hS fuel).1 n.id 0 m0 (hns n (List.mem_cons_self n rest)) hsub hcard
        with ⟨m1, hm1, hm1sub⟩
      rcases ih (fun x hx => hns x (List.mem_cons_of_mem n hx)) m1 hm1sub with
        ⟨m2, hm2, hsub2, hmono2, hpres2⟩
      refine ⟨m2, ?_, hsub2, ?_, ?_⟩
      · rw [List.foldl_cons]
        rw [show (some m0).bind (fun m =>
            if (jsGet m n.id).isSome then some m else assignDepth nm fuel n.id 0 m) =
            (if (jsGet m0 n.id).isSome then some m0 else assignDepth nm fuel n.id 0 m0) from rfl,
          if_neg hp, hm1]
        exact hm2
      · exact dmono_trans ((depth_mono_all nm fuel).1 n.id 0 m0 m1 hm1) hmono2
      · intro x hx
        rcases List.mem_cons.mp hx with rfl | hxr
        · rcases assignDepth_self_ge nm fuel x.id 0 m0 m1 hm1 with ⟨v, hv, _⟩
          rcases hmono2 x.id v hv with ⟨v', hv', _⟩
          exact Option.isSome_iff_exists.mpr ⟨v', hv'⟩
        · exact hpres2 x hxr

/-- The complete depth pass always succeeds within its fuel bound and covers
every parsed node. -/
theorem computeDepths_spec (parsed : ParsedCSV) :
    ∃ m, computeDepths parsed = some m ∧ keysOf m ⊆ SOf parsed ∧
      ∀ n ∈ parsed.nodes, (jsGet m n.id).isSome := by
  have hS := children_mem_SOf parsed
  have hfuel := card_SOf_lt_depthFuel parsed
  rcases depth_fold_roots hS hfuel (rootIdsOf parsed) (fun r hr => root_mem_SOf hr) []
    (by rw [keysOf]; simp) with ⟨m1, hm1, hsub1, _⟩
  rcases depth_fold_fallback hS hfuel parsed.nodes (fun n hn => id_mem_SOf hn) m1 hsub1 with
    ⟨m2, hm2, hsub2, _, hpres⟩
  refine ⟨m2, ?_, hsub2, hpres⟩
  show parsed.nodes.foldl _
      ((rootIdsOf parsed).foldl
        (fun acc r => acc.bind (fun m => assignDepth (nodeMapOf parsed) (depthFuel parsed) r 0 m))
        (some [])) = some m2
  rw [hm1]
  exact hm2

/-- The value `nodeDepthsOf` (with its `getD` default) is exactly the
successful result. -/
theorem nodeDepthsOf_eq {parsed : ParsedCSV} {m : DepthMap} (h : computeDepths parsed = some m) :
    nodeDepthsOf parsed = m := by
  rw [nodeDepthsOf, h]
  rfl

/-- C9: depth assignment terminates on every input, including cyclic and
self-referential graphs: the traversal with the stated fuel bound never
exhausts its fuel (it never re-expands an already-assigned node), and every
parsed node receives a finite depth. -/
theorem c9_cycle_termination (parsed : ParsedCSV) :
    ∃ m, computeDepths parsed = some m ∧
      ∀ n ∈ parsed.nodes, ∃ d, jsGet m n.id = some d := by
  rcases computeDepths_spec parsed with ⟨m, hm, _, hpres⟩
  exact ⟨m, hm, fun n hn => Option.isSome_iff_exists.mp (hpres n hn)⟩

/-- The cycle `0,A,1` / `1,B,0` from the spec terminates with finite depths
for both nodes. -/
theorem depths_cycle_example :
    computeDepths (parseCSV "0,A,1\n1,B,0".toList) =
      some [("0".toList, 2), ("1".toList, 1)] := by decide

/-- C2 (amended): when the traversal first visits a parsed node `u` (not yet
assigned) at depth `d`, every child of `u` ends the call with a depth of at
least `d + 1`, and existing depth entries never decrease.  Because a later
visit can raise `u`'s own stored depth without re-expanding its children,
the final depths need not satisfy `depth(v) ≥ depth(u) + 1` for every edge
(see the counterexample). -/
theorem c2_depth_monotonicity_amended (parsed : ParsedCSV) (fuel : ℕ) (u : Str) (d : ℕ)
    (depths m' : DepthMap) (node : TreeNodeData)
    (hfresh : jsGet depths u = none)
    (hnode : jsGet (nodeMapOf parsed) u = some node)
    (hrun : assignDepth (nodeMapOf parsed) fuel u d depths = some m') :
    (∀ c ∈ node.children, ∃ v, jsGet m' c = some v ∧ d + 1 ≤ v) ∧
    (∀ k v, jsGet depths k = some v → ∃ v', jsGet m' k = some v' ∧ v ≤ v') := by
  constructor
  · cases fuel with
    | zero => rw [assignDepth_zero] at hrun; cases hrun
    | succ fuel =>
      rw [assignDepth_succ, hfresh, hnode] at hrun
      exact assignDepthList_each (nodeMapOf parsed) fuel node.children (d + 1)
        (jsSet depths u d) m' hrun
  · exact (depth_mono_all (nodeMapOf parsed) fuel).1 u d depths m' hrun

theorem c2_depth_monotonicity_witness :
    ∃ v, jsGet [("u".toList, 0), ("v".toList, 1)] "v".toList = some v ∧ 0 + 1 ≤ v := by
  have h := c2_depth_monotonicity_amended (parseCSV "u,U,v\nv,V,".toList) 3 "u".toList 0 []
    [("u".toList, 0), ("v".toList, 1)] ⟨"u".toList, "U".toList, ["v".toList], none⟩
    rfl (by decide) (by decide)
  exact h.1 "v".toList (by decide)

/-- C2 counterexample: for the DAG `r,R,a;b` / `a,A,v` / `b,B,a` / `v,V,`
the edge `a → v` exists between parsed nodes, yet the final depths give
`depth(a) = 2` and `depth(v) = 2`: node `a` was expanded at depth 1 (pushing
`v` to 2) and only later pulled down to depth 2 via `b` without its child
being re-expanded, so `depth(v) ≥ depth(a) + 1` fails. -/
theorem c2_counterexample :
    (∃ n ∈ (parseCSV "r,R,a;b\na,A,v\nb,B,a\nv,V,".toList).nodes,
        n.id = "a".toList ∧ "v".toList ∈ n.children)
    ∧ jsGet (nodeDepthsOf (parseCSV "r,R,a;b\na,A,v\nb,B,a\nv,V,".toList)) "a".toList = some 2
    ∧ jsGet (nodeDepthsOf (parseCSV "r,R,a;b\na,A,v\nb,B,a\nv,V,".toList)) "v".toList = some 2
    ∧ ¬ (2 + 1 ≤ 2) := by
  exact ⟨by decide, by decide, by decide, by decide⟩

/-! ## Layout mode selection (C3) -/

theorem jsGet_eq_some_mem {K V : Type} [DecidableEq K] (m : List (K × V)) (k : K) (v : V)
    (h : jsGet m k = some v) : (k, v) ∈ m := by
  induction m with
  | nil => cases h
  | cons p rest ih =>
    rw [jsGet] at h
    by_cases hp : p.1 = k
    · rw [if_pos hp] at h
      injection h with e
      subst hp
      subst e
      simp
    · rw [if_neg hp] at h
      exact List.mem_cons_of_mem p (ih h)

theorem jsGet_isSome_mem_keys {K V : Type} [DecidableEq K] (m : List (K × V)) (k : K)
    (h : (jsGet m k).isSome) : k ∈ m.map (fun p => p.1) := by
  induction m with
  | nil => simp [jsGet] at h
  | cons p rest ih =>
    rw [jsGet] at h
    by_cases hp : p.1 = k
    · exact List.mem_map.mpr ⟨p, List.mem_cons_self p rest, hp⟩
    · rw [if_neg hp] at h
      exact List.mem_cons_of_mem p.1 (ih h)

theorem getLast?_isSome_cons {α : Type} (b : α) (bs : List α) :
    ∃ x, (b :: bs).getLast? = some x := by
  induction bs generalizing b with
  | nil => exact ⟨b, rfl⟩
  | cons c cs ih => rw [List.getLast?_cons_cons]; exact ih c

theorem getLast?_isSome_of_mem {α : Type} {l : List α} {a : α} (h : a ∈ l) :
    ∃ b, l.getLast? = some b := by
  cases l with
  | nil => cases h
  | cons b bs => exact getLast?_isSome_cons b bs

theorem le_foldl_max (l : List ℕ) :
    ∀ init : ℕ, init ≤ l.foldl max init ∧ ∀ a ∈ l, a ≤ l.foldl max init := by
  induction l with
  | nil => intro init; exact ⟨le_rfl, fun a ha => absurd ha (List.not_mem_nil a)⟩
  | cons b bs ih =>
    intro init
    rcases ih (max init b) with ⟨h1, h2⟩
    refine ⟨le_trans (le_max_left init b) h1, ?_⟩
    intro a ha
    rcases List.mem_cons.mp ha with rfl | har
    · exact le_trans (le_max_right init a) h1
    · exact h2 a har

/-- C3: the layout uses the stored positions exactly when every parsed node
has a parsed position: with all positions present the flow nodes are the
records with their positions passed through unchanged, and with at least
one position missing every flow node receives the computed depth-layered
position (x centered per layer, y a multiple of the vertical spacing), with
every parsed node represented. -/
theorem c3_explicit_mode_trigger (parsed : ParsedCSV) :
    (hasExplicitPositions parsed = true →
      calcFlowNodes parsed = parsed.nodes.map (fun n =>
        { id := n.id, label := n.label, children := n.children,
          position := n.position.getD (JSNum.nan, JSNum.nan) }))
    ∧ (hasExplicitPositions parsed = false →
        (∀ fn ∈ calcFlowNodes parsed, ∃ (depth idx : ℕ) (lvl : List Str),
            jsGet (nodeLevelsOf parsed) depth = some lvl ∧ lvl[idx]? = some fn.id ∧
            fn.position = (JSNum.fin (-((lvl.length : ℚ) * HORIZONTAL_SPACING) / 2 +
                HORIZONTAL_SPACING / 2 + (idx : ℚ) * HORIZONTAL_SPACING),
              JSNum.fin ((depth : ℚ) * VERTICAL_SPACING)))
        ∧ (∀ n ∈ parsed.nodes, ∃ fn ∈ calcFlowNodes parsed, fn.id = n.id)) := by
  constructor
  · intro hexp
    rw [calcFlowNodes, if_pos hexp]
    rfl
  · intro hexp
    have hcalc : calcFlowNodes parsed = autoFlowNodes parsed := by
      rw [calcFlowNodes, if_neg (by simp [hexp])]
    constructor
    · intro fn hfn
      rw [hcalc, autoFlowNodes] at hfn
      by_cases hempty : (nodeLevelsOf parsed).isEmpty
      · rw [if_pos hempty] at hfn; cases hfn
      · rw [if_neg hempty] at hfn
        rcases List.mem_flatten.mp hfn with ⟨sub, hsub, hfnsub⟩
        rcases List.mem_map.mp hsub with ⟨depth, _, hsubeq⟩
        subst hsubeq
        rcases List.mem_filterMap.mp hfnsub with ⟨pair, hpair, hbuild⟩
        cases hlv : jsGet (nodeLevelsOf parsed) depth with
        | none =>
          rw [hlv] at hpair
          simp at hpair
        | some lvl =>
          rw [hlv] at hpair hbuild
          cases hnm : jsGet (nodeMapOf parsed) pair.2 with
          | none => rw [hnm] at hbuild; cases hbuild
          | some node =>
            rw [hnm] at hbuild
            injection hbuild with e
            refine ⟨depth, pair.1, lvl, hlv, ?_, ?_⟩
            · rw [← e]
              exact List.mem_enum_iff_getElem?.mp hpair
            · rw [← e]
              simp
    · intro n hn
      rcases computeDepths_spec parsed with ⟨m, hm, _, hpres⟩
      rcases Option.isSome_iff_exists.mp (hpres n hn) with ⟨dep, hdep⟩
      have hmeq : nodeDepthsOf parsed = m := nodeDepthsOf_eq hm
      have hpairmem : ((dep, n.id) : ℕ × Str) ∈ m.map (fun p => (p.2, p.1)) :=
        List.mem_map.mpr ⟨(n.id, dep), jsGet_eq_some_mem m n.id dep hdep, rfl⟩
      have hlevels : nodeLevelsOf parsed = jsGroup (m.map (fun p => (p.2, p.1))) := by
        rw [nodeLevelsOf, hmeq]
      have hfilter :
          ((dep, n.id) : ℕ × Str) ∈
            (m.map (fun p => (p.2, p.1))).filter (fun p => p.1 = dep) :=
        List.mem_filter.mpr ⟨hpairmem, by simp⟩
      have hfne : ¬ ((m.map (fun p => (p.2, p.1))).filter (fun p => p.1 = dep)).isEmpty := by
        intro hcon
        rw [List.isEmpty_iff] at hcon
        rw [hcon] at hfilter
        cases hfilter
      have hlv : jsGet (nodeLevelsOf parsed) dep =
          some (((m.map (fun p => (p.2, p.1))).filter (fun p => p.1 = dep)).map (·.2)) := by
        rw [hlevels, jsGet_jsGroup, if_neg hfne]
      have hidmem : n.id ∈
          ((m.map (fun p => (p.2, p.1))).filter (fun p => p.1 = dep)).map (·.2) :=
        List.mem_map.mpr ⟨(dep, n.id), hfilter, rfl⟩
      have hdeple : dep ≤ ((nodeLevelsOf parsed).map (fun p => p.1)).foldl max 0 := by
        refine (le_foldl_max ((nodeLevelsOf parsed).map (fun p => p.1)) 0).2 dep ?_
        exact jsGet_isSome_mem_keys (nodeLevelsOf parsed) dep (by rw [hlv]; rfl)
      have hlevne : ¬ (nodeLevelsOf parsed).isEmpty := by
        intro hcon
        rw [List.isEmpty_iff] at hcon
        rw [hcon] at hlv
        cases hlv
      have hfiltmem : n ∈ parsed.nodes.filter (fun x => x.id = n.id) :=
        List.mem_filter.mpr ⟨hn, by simp⟩
      rcases getLast?_isSome_of_mem hfiltmem with ⟨node, hnode⟩
      have hnm : jsGet (nodeMapOf parsed) n.id = some node := by
        rw [jsGet_nodeMapOf]; exact hnode
      rcases List.mem_iff_getElem?.mp hidmem with ⟨idx, hidx⟩
      refine ⟨{ id := n.id,
                label := node.label,
                children := node.children,
                position := (JSNum.fin
                    (-((((jsGet (nodeLevelsOf parsed) dep).getD []).length : ℚ) *
                        HORIZONTAL_SPACING) / 2 +
                      HORIZONTAL_SPACING / 2 + (idx : ℚ) * HORIZONTAL_SPACING),
                  JSNum.fin ((dep : ℚ) * VERTICAL_SPACING)) }, ?_, rfl⟩
      rw [hcalc, autoFlowNodes, if_neg hlevne]
      refine List.mem_flatten.mpr ⟨_, List.mem_map.mpr ⟨dep, ?_, rfl⟩, ?_⟩
      · exact List.mem_range.mpr (by omega)
      · refine List.mem_filterMap.mpr ⟨(idx, n.id), ?_, ?_⟩
        · refine List.mem_enum_iff_getElem?.mpr ?_
          rw [hlv]
          simpa using hidx
        · rw [hnm]
          rfl

theorem c3_explicit_mode_trigger_witness :
    calcFlowNodes (parseCSV "0,A,1,5;6\n1,B,,7;8".toList) =
      [⟨"0".toList, "A".toList, ["1".toList], (JSNum.fin 5, JSNum.fin 6)⟩,
       ⟨"1".toList, "B".toList, [], (JSNum.fin 7, JSNum.fin 8)⟩]
    ∧ ∃ fn ∈ calcFlowNodes (parseCSV "0,A,1\n1,B,".toList), fn.id = "1".toList := by
  constructor
  · have h := (c3_explicit_mode_trigger (parseCSV "0,A,1,5;6\n1,B,,7;8".toList)).1
      (by with_unfolding_all decide)
    rw [h]
    with_unfolding_all decide
  · exact ((c3_explicit_mode_trigger (parseCSV "0,A,1\n1,B,".toList)).2
      (by decide)).2 ⟨"1".toList, "B".toList, [], none⟩ (by decide)

/-! ## String-level lemmas: digits, number rendering, parsing round-trips -/

theorem takeWhile_all {α : Type} (p : α → Bool) (l : List α) (h : ∀ c ∈ l, p c = true) :
    l.takeWhile p = l := by
  induction l with
  | nil => rfl
  | cons c rest ih =>
    rw [List.takeWhile_cons, h c (List.mem_cons_self c rest),
      ih (fun x hx => h x (List.mem_cons_of_mem c hx))]
    simp

theorem digitVal_digitChar {d : ℕ} (h : d < 10) : digitVal (digitChar d) = d := by
  interval_cases d <;> decide

theorem isDigitChar_digitChar {d : ℕ} (h : d < 10) : isDigitChar (digitChar d) = true := by
  interval_cases d <;> decide

theorem digit_not_ws {c : Char} (h : isDigitChar c = true) : isJsWs c = false := by
  have h1 : c ≠ ' ' := fun he => absurd (he ▸ h) (by decide)
  have h2 : c ≠ '\t' := fun he => absurd (he ▸ h) (by decide)
  have h3 : c ≠ '\n' := fun he => absurd (he ▸ h) (by decide)
  have h4 : c ≠ '\r' := fun he => absurd (he ▸ h) (by decide)
  have h5 : c ≠ '\x0b' := fun he => absurd (he ▸ h) (by decide)
  have h6 : c ≠ '\x0c' := fun he => absurd (he ▸ h) (by decide)
  simp [isJsWs, h1, h2, h3, h4, h5, h6]

theorem digit_ne {c x : Char} (h : isDigitChar c = true) (hx : isDigitChar x = false) :
    c ≠ x := fun he => by subst he; rw [h] at hx; cases hx

theorem digitsToNat_concat (xs : Str) (c : Char) :
    digitsToNat (xs ++ [c]) = 10 * digitsToNat xs + digitVal c := by
  rw [digitsToNat, digitsToNat, List.foldl_append]
  simp [Nat.mul_comm]

theorem natStrCore_spec : ∀ (fuel : ℕ), ∀ (n : ℕ) (acc : Str), n < 10 ^ (fuel + 1) →
    ∃ r, natStrCore (fuel + 1) n acc = r ++ acc ∧ r ≠ [] ∧
      (∀ c ∈ r, isDigitChar c = true) ∧ digitsToNat r = n := by
  intro fuel
  induction fuel with
  | zero =>
    intro n acc h
    have h10 : n < 10 := by simpa using h
    refine ⟨[digitChar n], ?_, by simp, ?_, ?_⟩
    · rw [natStrCore, if_pos h10]; rfl
    · intro c hc
      rcases List.mem_singleton.mp hc with rfl
      exact isDigitChar_digitChar h10
    · simp [digitsToNat, digitVal_digitChar h10]
  | succ fuel ih =>
    intro n acc h
    by_cases h10 : n < 10
    · refine ⟨[digitChar n], ?_, by simp, ?_, ?_⟩
      · rw [natStrCore, if_pos h10]; rfl
      · intro c hc
        rcases List.mem_singleton.mp hc with rfl
        exact isDigitChar_digitChar h10
      · simp [digitsToNat, digitVal_digitChar h10]
    · have hdiv : n / 10 < 10 ^ (fuel + 1) := by
        rw [Nat.div_lt_iff_lt_mul (by omega : 0 < 10)]
        calc n < 10 ^ (fuel + 1 + 1) := h
        _ = 10 ^ (fuel + 1) * 10 := by ring
      rcases ih (n / 10) (digitChar (n % 10) :: acc) hdiv with ⟨r', heq, hne, hdig, hval⟩
      refine ⟨r' ++ [digitChar (n % 10)], ?_, by simp, ?_, ?_⟩
      · rw [natStrCore, if_neg h10, heq, List.append_assoc]
        rfl
      · intro c hc
        rcases List.mem_append.mp hc with hc | hc
        · exact hdig c hc
        · rcases List.mem_singleton.mp hc with rfl
          exact isDigitChar_digitChar (Nat.mod_lt n (by omega))
      · rw [digitsToNat_concat, hval, digitVal_digitChar (Nat.mod_lt n (by omega))]
        omega

theorem natStr_spec (n : ℕ) :
    natStr n ≠ [] ∧ (∀ c ∈ natStr n, isDigitChar c = true) ∧ digitsToNat (natStr n) = n := by
  have hlt : n < 10 ^ (n + 1) :=
    lt_of_lt_of_le (Nat.lt_pow_self (by omega) n) (Nat.pow_le_pow_right (by omega) (by omega))
  rcases natStrCore_spec n n [] hlt with ⟨r, heq, hne, hdig, hval⟩
  rw [natStr, heq, List.append_nil]
  exact ⟨hne, hdig, hval⟩

theorem headD_mem {α : Type} {l : List α} (hne : l ≠ []) (d : α) : l.headD d ∈ l := by
  cases l with
  | nil => exact absurd rfl hne
  | cons c rest => exact List.mem_cons_self c rest

theorem dropWhile_ws_of_digit {l : Str} (hne : l ≠ []) (hd : ∀ c ∈ l, isDigitChar c = true) :
    l.dropWhile isJsWs = l := by
  cases l with
  | nil => rfl
  | cons c rest =>
    rw [List.dropWhile_cons, digit_not_ws (hd c (List.mem_cons_self c rest))]
    simp

theorem intStr_nonneg {z : ℤ} (h : 0 ≤ z) : intStr z = natStr z.toNat := by
  rw [intStr, if_neg (by omega)]

theorem intStr_neg {z : ℤ} (h : z < 0) : intStr z = '-' :: natStr (-z).toNat := by
  rw [intStr, if_pos h]

theorem intStr_chars (z : ℤ) : ∀ c ∈ intStr z, isDigitChar c = true ∨ c = '-' := by
  intro c hc
  rw [intStr] at hc
  by_cases h : z < 0
  · rw [if_pos h] at hc
    rcases List.mem_cons.mp hc with rfl | hc2
    · exact Or.inr rfl
    · exact Or.inl ((natStr_spec (-z).toNat).2.1 c hc2)
  · rw [if_neg h] at hc
    exact Or.inl ((natStr_spec z.toNat).2.1 c hc)

theorem intStr_ne_nil (z : ℤ) : intStr z ≠ [] := by
  rw [intStr]
  by_cases h : z < 0
  · rw [if_pos h]; simp
  · rw [if_neg h]; exact (natStr_spec z.toNat).1

theorem intStr_not_mem {z : ℤ} {x : Char} (hx : isDigitChar x = false) (hd : x ≠ '-') :
    x ∉ intStr z := by
  intro hmem
  rcases intStr_chars z x hmem with h | h
  · rw [h] at hx; cases hx
  · exact hd h

theorem parseIntJS_digits {l : Str} (hne : l ≠ []) (hd : ∀ c ∈ l, isDigitChar c = true) :
    parseIntJS l = JSNum.fin (digitsToNat l : ℚ) := by
  obtain ⟨c, rest, rfl⟩ : ∃ c rest, l = c :: rest := by
    cases l with
    | nil => exact absurd rfl hne
    | cons c rest => exact ⟨c, rest, rfl⟩
  have hc : isDigitChar c = true := hd c (List.mem_cons_self c rest)
  have hnws : isJsWs c = false := digit_not_ws hc
  have hnm : c ≠ '-' := digit_ne hc (by decide)
  have hnp : c ≠ '+' := digit_ne hc (by decide)
  have hs1 : (c :: rest).dropWhile isJsWs = c :: rest := dropWhile_ws_of_digit hne hd
  simp [parseIntJS, hs1, hnm, hnp, takeWhile_all isDigitChar (c :: rest) hd]

theorem parseIntJS_intStr (z : ℤ) : parseIntJS (intStr z) = JSNum.fin (z : ℚ) := by
  by_cases h : z < 0
  · rw [intStr_neg h]
    rcases natStr_spec (-z).toNat with ⟨hne, hdig, hval⟩
    have hs1 : ('-' :: natStr (-z).toNat).dropWhile isJsWs = '-' :: natStr (-z).toNat := by
      rw [List.dropWhile_cons, show isJsWs '-' = false from by decide]
      simp
    simp [parseIntJS, hs1, takeWhile_all isDigitChar _ hdig, hne, hval]
    have h2 : ((-z).toNat : ℤ) = -z := Int.toNat_of_nonneg (by omega)
    have h3 : (((-z).toNat : ℕ) : ℚ) = ((-z : ℤ) : ℚ) := by exact_mod_cast h2
    rw [h3]
    push_cast
    ring
  · rw [intStr_nonneg (by omega)]
    rcases natStr_spec z.toNat with ⟨hne, hdig, hval⟩
    rw [parseIntJS_digits hne hdig, hval]
    congr 1
    have h2 : (z.toNat : ℤ) = z := Int.toNat_of_nonneg (by omega)
    exact_mod_cast h2

theorem isPrefixOf_infinity_digit {c : Char} (rest : Str) (hc : isDigitChar c = true) :
    ("Infinity".toList.isPrefixOf (c :: rest)) = false := by
  have hne : ('I' == c) = false := beq_eq_false_iff_ne.mpr (digit_ne hc (by decide)).symm
  rw [show "Infinity".toList = 'I' :: "nfinity".toList from rfl]
  simp [List.isPrefixOf, hne]

theorem parseFloat_digits {l : Str} (hne : l ≠ []) (hd : ∀ c ∈ l, isDigitChar c = true) :
    parseFloat l = JSNum.fin (digitsToNat l : ℚ) := by
  obtain ⟨c, rest, rfl⟩ : ∃ c rest, l = c :: rest := by
    cases l with
    | nil => exact absurd rfl hne
    | cons c rest => exact ⟨c, rest, rfl⟩
  have hc : isDigitChar c = true := hd c (List.mem_cons_self c rest)
  have hnm : c ≠ '-' := digit_ne hc (by decide)
  have hnp : c ≠ '+' := digit_ne hc (by decide)
  have hs1 : (c :: rest).dropWhile isJsWs = c :: rest := dropWhile_ws_of_digit hne hd
  have hinf := isPrefixOf_infinity_digit rest hc
  have htake := takeWhile_all isDigitChar (c :: rest) hd
  simp [parseFloat, hs1, hnm, hnp, hinf, htake, List.drop_length, digitsToNat]
  intro he
  exact absurd he.symm (digit_ne hc (by decide))

theorem parseFloat_intStr (z : ℤ) : parseFloat (intStr z) = JSNum.fin (z : ℚ) := by
  by_cases h : z < 0
  · rw [intStr_neg h]
    rcases natStr_spec (-z).toNat with ⟨hne, hdig, hval⟩
    obtain ⟨c, rest, hcr⟩ : ∃ c rest, natStr (-z).toNat = c :: rest := by
      cases hx : natStr (-z).toNat with
      | nil => exact absurd hx hne
      | cons c rest => exact ⟨c, rest, rfl⟩
    have hc : isDigitChar c = true := hdig c (by rw [hcr]; exact List.mem_cons_self c rest)
    have hs1 : ('-' :: natStr (-z).toNat).dropWhile isJsWs = '-' :: natStr (-z).toNat := by
      rw [List.dropWhile_cons, show isJsWs '-' = false from by decide]
      simp
    have hinf : ("Infinity".toList.isPrefixOf (natStr (-z).toNat)) = false := by
      rw [hcr]; exact isPrefixOf_infinity_digit rest hc
    have htake := takeWhile_all isDigitChar (natStr (-z).toNat) hdig
    have hheadne : (natStr (-z).toNat).headD ' ' ≠ '.' := by
      rw [hcr]
      exact digit_ne hc (by decide)
    have hheade : (natStr (-z).toNat).headD ' ' ≠ 'e' := by
      rw [hcr]; exact digit_ne hc (by decide)
    have hheadE : (natStr (-z).toNat).headD ' ' ≠ 'E' := by
      rw [hcr]; exact digit_ne hc (by decide)
    have hinf2 : ¬ ("Infinity".toList <+: natStr (-z).toNat) := by
      intro hcon
      rw [hcr] at hcon
      rcases hcon with ⟨t, ht⟩
      have hh : 'I' = c := by
        have := congrArg (fun l => l.headD ' ') ht
        simpa using this
      exact absurd hh.symm (digit_ne hc (by decide))
    have hinf3 : ¬ (['I','n','f','i','n','i','t','y'] <+: natStr (-z).toNat) := by
      intro hcon
      refine hinf2 ?_
      rw [show "Infinity".toList = ['I','n','f','i','n','i','t','y'] from rfl]
      exact hcon
    simp [parseFloat, hs1, htake, List.drop_length, hne, hval, hheadne, hheade, hheadE]
    rw [if_neg hinf3]
    congr 1
    have h2 : ((-z).toNat : ℤ) = -z := Int.toNat_of_nonneg (by omega)
    have h3 : (((-z).toNat : ℕ) : ℚ) = ((-z : ℤ) : ℚ) := by exact_mod_cast h2
    rw [h3]
    norm_num [digitsToNat]
  · rw [intStr_nonneg (by omega)]
    rcases natStr_spec z.toNat with ⟨hne, hdig, hval⟩
    rw [parseFloat_digits hne hdig, hval]
    congr 1
    have h2 : (z.toNat : ℤ) = z := Int.toNat_of_nonneg (by omega)
    exact_mod_cast h2

/-! ## Split, join and trim lemmas -/

theorem splitOnChar_ne_nil (sep : Char) (s : Str) : splitOnChar sep s ≠ [] := by
  induction s with
  | nil => simp [splitOnChar]
  | cons c rest ih =>
    rw [splitOnChar]
    by_cases h : c = sep
    · rw [if_pos h]; simp
    · rw [if_neg h]
      cases hsp : splitOnChar sep rest with
      | nil => simp
      | cons p ps => simp

theorem splitOnChar_not_mem (sep : Char) (s : Str) : ∀ p ∈ splitOnChar sep s, sep ∉ p := by
  induction s with
  | nil =>
    intro p hp
    rw [splitOnChar] at hp
    rcases List.mem_singleton.mp hp with rfl
    simp
  | cons c rest ih =>
    intro p hp
    rw [splitOnChar] at hp
    by_cases h : c = sep
    · rw [if_pos h] at hp
      rcases List.mem_cons.mp hp with rfl | hp2
      · simp
      · exact ih p hp2
    · rw [if_neg h] at hp
      cases hsp : splitOnChar sep rest with
      | nil => exact absurd hsp (splitOnChar_ne_nil sep rest)
      | cons q qs =>
        rw [hsp] at hp
        rcases List.mem_cons.mp hp with rfl | hp2
        · intro hmem
          rcases List.mem_cons.mp hmem with he | hmem2
          · exact h he.symm
          · exact ih q (by rw [hsp]; exact List.mem_cons_self q qs) hmem2
        · exact ih p (by rw [hsp]; exact List.mem_cons_of_mem q hp2)

theorem splitOnChar_append_sep (sep : Char) (a b : Str) (ha : sep ∉ a) :
    splitOnChar sep (a ++ sep :: b) = a :: splitOnChar sep b := by
  induction a with
  | nil =>
    rw [List.nil_append, splitOnChar, if_pos rfl]
  | cons c a' ih =>
    have hc : ¬ c = sep := fun he => ha (he ▸ List.mem_cons_self c a')
    rw [List.cons_append, splitOnChar, if_neg hc,
      ih (fun hm => ha (List.mem_cons_of_mem c hm))]

theorem splitOnChar_no_sep (sep : Char) (s : Str) (h : sep ∉ s) :
    splitOnChar sep s = [s] := by
  induction s with
  | nil => rfl
  | cons c rest ih =>
    have hc : ¬ c = sep := fun he => h (he ▸ List.mem_cons_self c rest)
    rw [splitOnChar, if_neg hc, ih (fun hm => h (List.mem_cons_of_mem c hm))]

theorem intercalate_cons₂ {α : Type} (sep : List α) (a b : List α) (l : List (List α)) :
    List.intercalate sep (a :: b :: l) = a ++ sep ++ List.intercalate sep (b :: l) := by
  simp [List.intercalate, List.intersperse]

theorem intercalate_single {α : Type} (sep : List α) (a : List α) :
    List.intercalate sep [a] = a := by
  simp [List.intercalate]

theorem splitOnChar_intercalate (sep : Char) (ps : List Str) (hne : ps ≠ [])
    (h : ∀ p ∈ ps, sep ∉ p) :
    splitOnChar sep (List.intercalate [sep] ps) = ps := by
  induction ps with
  | nil => exact absurd rfl hne
  | cons p ps' ih =>
    cases ps' with
    | nil =>
      rw [intercalate_single]
      exact splitOnChar_no_sep sep p (h p (List.mem_cons_self p []))
    | cons q qs =>
      rw [intercalate_cons₂]
      rw [List.append_assoc, List.singleton_append]
      rw [splitOnChar_append_sep sep p _ (h p (List.mem_cons_self p _))]
      rw [ih (by simp) (fun x hx => h x (List.mem_cons_of_mem p hx))]

theorem dropWhile_eq_self_head {l : Str} (h : ∀ c ∈ l.head?, isJsWs c = false) :
    l.dropWhile isJsWs = l := by
  cases l with
  | nil => rfl
  | cons c rest =>
    rw [List.dropWhile_cons, h c rfl]
    simp

theorem head_dropWhile_not (p : Char → Bool) (l : Str) :
    ∀ c ∈ (l.dropWhile p).head?, p c = false := by
  induction l with
  | nil => intro c hc; cases hc
  | cons x rest ih =>
    intro c hc
    rw [List.dropWhile_cons] at hc
    by_cases hx : p x
    · rw [if_pos hx] at hc
      exact ih c hc
    · rw [if_neg hx] at hc
      injection hc with e
      subst e
      exact Bool.eq_false_iff.mpr hx

theorem trimStr_eq_self {l : Str} (hh : ∀ c ∈ l.head?, isJsWs c = false)
    (hl : ∀ c ∈ l.getLast?, isJsWs c = false) : trimStr l = l := by
  rw [trimStr, dropWhile_eq_self_head hh]
  have hrev : ∀ c ∈ l.reverse.head?, isJsWs c = false := by
    intro c hc
    rw [List.head?_reverse] at hc
    exact hl c hc
  rw [dropWhile_eq_self_head hrev, List.reverse_reverse]

theorem trimStr_head_not_ws (l : Str) : ∀ c ∈ (trimStr l).head?, isJsWs c = false := by
  intro c hc
  rw [trimStr] at hc
  obtain ⟨t, ht⟩ := @List.dropWhile_suffix Char ((l.dropWhile isJsWs).reverse) isJsWs
  have hA : l.dropWhile isJsWs =
      ((l.dropWhile isJsWs).reverse.dropWhile isJsWs).reverse ++ t.reverse := by
    have h2 := congrArg List.reverse ht
    simpa using h2.symm
  have hhA : (l.dropWhile isJsWs).head? = some c := by
    rw [hA]
    cases hB : ((l.dropWhile isJsWs).reverse.dropWhile isJsWs).reverse with
    | nil => rw [hB] at hc; cases hc
    | cons x xs =>
      rw [hB] at hc
      injection hc with e
      subst e
      simp
  exact head_dropWhile_not isJsWs l c hhA

theorem trimStr_last_not_ws (l : Str) : ∀ c ∈ (trimStr l).getLast?, isJsWs c = false := by
  intro c hc
  rw [trimStr, List.getLast?_reverse] at hc
  exact head_dropWhile_not isJsWs (l.dropWhile isJsWs).reverse c hc

theorem trimStr_trimStr (l : Str) : trimStr (trimStr l) = trimStr l :=
  trimStr_eq_self (trimStr_head_not_ws l) (trimStr_last_not_ws l)

theorem mem_trimStr {c : Char} {l : Str} (h : c ∈ trimStr l) : c ∈ l := by
  rw [trimStr] at h
  rw [List.mem_reverse] at h
  have h2 := (@List.dropWhile_sublist Char ((l.dropWhile isJsWs).reverse) isJsWs).subset h
  rw [List.mem_reverse] at h2
  exact (List.dropWhile_sublist isJsWs).subset h2

/-! ## Lookup lemmas for the channel and trunk maps -/

section CondFold

variable {K V W : Type} [DecidableEq K]

theorem mem_keys_isSome (m : List (K × V)) (k : K) (h : k ∈ m.map (fun p => p.1)) :
    (jsGet m k).isSome := by
  induction m with
  | nil => cases h
  | cons p rest ih =>
    rw [jsGet]
    by_cases hp : p.1 = k
    · rw [if_pos hp]; rfl
    · rw [if_neg hp]
      rcases List.mem_cons.mp h with he | hm
      · exact absurd he.symm hp
      · exact ih hm

theorem jsGet_eq_none_of_not_mem (m : List (K × V)) (k : K) (h : k ∉ m.map (fun p => p.1)) :
    jsGet m k = none := by
  cases hg : jsGet m k with
  | none => rfl
  | some v => exact absurd (jsGet_isSome_mem_keys m k (by rw [hg]; rfl)) h

theorem jsSet_keys_mem (m : List (K × V)) (k : K) (v : V) (h : k ∈ m.map (fun p => p.1)) :
    (jsSet m k v).map (fun p => p.1) = m.map (fun p => p.1) := by
  induction m with
  | nil => cases h
  | cons p rest ih =>
    rw [jsSet]
    by_cases hp : p.1 = k
    · rw [if_pos hp]
      simp [hp]
    · rw [if_neg hp]
      rcases List.mem_cons.mp h with he | hm
      · exact absurd he.symm hp
      · simp [ih hm]

theorem jsSet_keys_not_mem (m : List (K × V)) (k : K) (v : V)
    (h : k ∉ m.map (fun p => p.1)) :
    (jsSet m k v).map (fun p => p.1) = m.map (fun p => p.1) ++ [k] := by
  induction m with
  | nil => rfl
  | cons p rest ih =>
    rw [jsSet]
    by_cases hp : p.1 = k
    · exact absurd (List.mem_map.mpr ⟨p, List.mem_cons_self p rest, hp⟩) h
    · rw [if_neg hp]
      simp only [List.map_cons, List.cons_append]
      rw [ih (fun hm => h (List.mem_cons_of_mem p.1 hm))]

theorem nodup_keys_jsSet (m : List (K × V)) (k : K) (v : V)
    (h : (m.map (fun p => p.1)).Nodup) : ((jsSet m k v).map (fun p => p.1)).Nodup := by
  by_cases hk : k ∈ m.map (fun p => p.1)
  · rw [jsSet_keys_mem m k v hk]; exact h
  · rw [jsSet_keys_not_mem m k v hk]
    simp [List.nodup_append, h, hk]

theorem jsGroup_keys_nodup (ps : List (K × V)) : ((jsGroup ps).map (fun p => p.1)).Nodup := by
  rw [jsGroup]
  suffices hgen : ∀ m : List (K × List V), (m.map (fun p => p.1)).Nodup →
      ((ps.foldl (fun m kv => jsSet m kv.1 ((jsGet m kv.1).getD [] ++ [kv.2])) m).map
        (fun p => p.1)).Nodup by
    exact hgen [] (by simp)
  induction ps with
  | nil => intro m hm; exact hm
  | cons p rest ih =>
    intro m hm
    rw [List.foldl_cons]
    exact ih _ (nodup_keys_jsSet m p.1 _ hm)

theorem jsGet_condFold (g : K → V → Option W)
    (step : List (K × W) → (K × V) → List (K × W))
    (hstep : ∀ m p, step m p =
      (match g p.1 p.2 with | some w => jsSet m p.1 w | none => m))
    (entries : List (K × V)) (hnodup : (entries.map (fun p => p.1)).Nodup) (t : K) :
    ∀ m0 : List (K × W),
      jsGet (entries.foldl step m0) t =
        (((jsGet entries t).bind (fun v => g t v)).map some).getD (jsGet m0 t) := by
  induction entries with
  | nil => intro m0; simp
  | cons p rest ih =>
    intro m0
    have hk : p.1 ∉ rest.map (fun q => q.1) := by
      rw [List.map_cons] at hnodup
      exact (List.nodup_cons.mp hnodup).1
    have hrest : (rest.map (fun q => q.1)).Nodup := by
      rw [List.map_cons] at hnodup
      exact (List.nodup_cons.mp hnodup).2
    rw [List.foldl_cons, hstep]
    by_cases hkt : p.1 = t
    · subst hkt
      have hrt : jsGet rest p.1 = none := jsGet_eq_none_of_not_mem rest p.1 hk
      cases hg : g p.1 p.2 with
      | some w =>
        rw [ih hrest, hrt]
        simp [jsGet, hg, jsGet_jsSet_self]
      | none =>
        rw [ih hrest, hrt]
        simp [jsGet, hg]
    · have hcons : jsGet (p :: rest) t = jsGet rest t := by rw [jsGet, if_neg hkt]
      cases hg : g p.1 p.2 with
      | some w =>
        have hset : jsGet (jsSet m0 p.1 w) t = jsGet m0 t :=
          jsGet_jsSet_ne m0 w (fun he => hkt he.symm)
        rw [ih hrest, hset, hcons]
      | none =>
        rw [ih hrest, hcons]

end CondFold

/-- The `sources` list that `edgesByTarget` associates with a target id. -/
def incomingSources (parsed : ParsedCSV) (t : Str) : List (JSNum × JSNum) :=
  ((targetEdgePairs parsed).filter (fun p => p.1 = t)).map (fun p => p.2)

theorem jsGet_edgesByTargetOf (parsed : ParsedCSV) (t : Str) :
    jsGet (edgesByTargetOf parsed) t =
      (if (incomingSources parsed t).isEmpty then none else some (incomingSources parsed t)) := by
  rw [edgesByTargetOf, jsGet_jsGroup, incomingSources]
  cases hf : (targetEdgePairs parsed).filter (fun p => p.1 = t) with
  | nil => simp
  | cons q qs => simp

theorem jsGet_verticalTrunksOf (parsed : ParsedCSV) (t : Str) :
    jsGet (verticalTrunksOf parsed) t =
      (((jsGet (edgesByTargetOf parsed) t).bind (fun sources =>
        if 1 < sources.length then
          (jsGet (nodePositionsOf parsed) t).map
            (fun tp => (tp.1, (JSNum.add (jsMinList (sources.map (fun s => s.2))) tp.2).half))
        else none)).map some).getD none := by
  have h := jsGet_condFold
    (fun k sources =>
      if 1 < sources.length then
        (jsGet (nodePositionsOf parsed) k).map
          (fun tp => (tp.1, (JSNum.add (jsMinList (sources.map (fun s => s.2))) tp.2).half))
      else none)
    (fun m p =>
      if 1 < p.2.length then
        match jsGet (nodePositionsOf parsed) p.1 with
        | none => m
        | some tp =>
          jsSet m p.1 (tp.1, (JSNum.add (jsMinList (p.2.map (fun s => s.2))) tp.2).half)
      else m)
    (by
      intro m p
      by_cases hlen : 1 < p.2.length
      · cases hp : jsGet (nodePositionsOf parsed) p.1 with
        | none => simp [hlen, hp]
        | some tp => simp [hlen, hp]
      · simp [hlen])
    (edgesByTargetOf parsed) (jsGroup_keys_nodup (targetEdgePairs parsed)) t []
  rw [verticalTrunksOf] at *
  rw [h]
  rfl

/-- C5: a target node that receives more than one incoming edge gets exactly
one shared vertical trunk, with x the target's x-center and y the midpoint
between the minimum source-bottom-Y among its incoming edges and the
target's top Y; a target with exactly one incoming edge gets none. -/
theorem c5_trunk_merging (parsed : ParsedCSV) (t : Str) (tp : JSNum × JSNum)
    (htp : jsGet (nodePositionsOf parsed) t = some tp) :
    (1 < (incomingSources parsed t).length →
      jsGet (verticalTrunksOf parsed) t =
        some (tp.1,
          (JSNum.add (jsMinList ((incomingSources parsed t).map (fun s => s.2))) tp.2).half))
    ∧ ((incomingSources parsed t).length = 1 → jsGet (verticalTrunksOf parsed) t = none) := by
  constructor
  · intro hlen
    rw [jsGet_verticalTrunksOf, jsGet_edgesByTargetOf]
    rw [if_neg (by
      intro hcon
      rw [List.isEmpty_iff] at hcon
      rw [hcon] at hlen
      simp at hlen)]
    simp [hlen, htp]
  · intro hlen
    rw [jsGet_verticalTrunksOf, jsGet_edgesByTargetOf]
    rw [if_neg (by
      intro hcon
      rw [List.isEmpty_iff] at hcon
      rw [hcon] at hlen
      simp at hlen)]
    simp [hlen]

theorem c5_trunk_merging_witness :
    jsGet (verticalTrunksOf (parseCSV "0,Root,1;2\n1,Foo,3\n2,Bar,3\n3,Buzz,".toList))
      "3".toList = some (JSNum.fin 75, JSNum.fin 200)
    ∧ jsGet (verticalTrunksOf (parseCSV "0,Root,1;2\n1,Foo,3\n2,Bar,3\n3,Buzz,".toList))
      "1".toList = none := by
  constructor
  · have h := (c5_trunk_merging (parseCSV "0,Root,1;2\n1,Foo,3\n2,Bar,3\n3,Buzz,".toList)
      "3".toList (JSNum.fin 75, JSNum.fin 240)
      (by with_unfolding_all decide)).1 (by with_unfolding_all decide)
    rw [h]
    with_unfolding_all decide
  · exact (c5_trunk_merging (parseCSV "0,Root,1;2\n1,Foo,3\n2,Bar,3\n3,Buzz,".toList)
      "1".toList (JSNum.fin (-25), JSNum.fin 120)
      (by with_unfolding_all decide)).2 (by with_unfolding_all decide)

theorem not_mem_intStr_nonneg {z : ℤ} (h : 0 ≤ z) : '-' ∉ intStr z := by
  rw [intStr_nonneg h]
  intro hmem
  exact absurd ((natStr_spec z.toNat).2.1 '-' hmem) (by decide)

theorem numToStr_intCast (z : ℤ) : numToStr (JSNum.fin (z : ℚ)) = intStr z := by
  simp [numToStr, Rat.den_intCast, Rat.num_intCast]

theorem channelValue_intKey {a b : ℤ} (ha : 0 ≤ a) (hb : 0 ≤ b) :
    channelValue (intStr a ++ '-' :: intStr b) = JSNum.fin (((a : ℚ) + (b : ℚ)) / 2) := by
  simp only [channelValue]
  rw [splitOnChar_append_sep '-' _ _ (not_mem_intStr_nonneg ha),
      splitOnChar_no_sep '-' _ (not_mem_intStr_nonneg hb)]
  simp [parseIntJS_intStr, JSNum.add, JSNum.half]

theorem jsGet_horizontalChannelsOf (parsed : ParsedCSV) (t : Str) :
    jsGet (horizontalChannelsOf parsed) t =
      (jsGet (edgesByLayersOf parsed) t).map (fun _ => channelValue t) := by
  have h := jsGet_condFold (fun k _ => some (channelValue k))
    (fun m p => jsSet m p.1 (channelValue p.1))
    (by intro m p; rfl)
    (edgesByLayersOf parsed) (jsGroup_keys_nodup (layerEdgePairs parsed)) t []
  rw [horizontalChannelsOf]
  rw [h]
  cases jsGet (edgesByLayersOf parsed) t <;> rfl

theorem mem_layerEdgePairs_present (parsed : ParsedCSV) {k : Str} {e : ChannelEdge}
    (h : (k, e) ∈ layerEdgePairs parsed) :
    (jsGet (edgesByLayersOf parsed) k).isSome = true := by
  rw [edgesByLayersOf, jsGet_jsGroup]
  rw [if_neg (by
    intro hcon
    rw [List.isEmpty_iff, List.filter_eq_nil_iff] at hcon
    exact hcon (k, e) h (by simp))]
  rfl

/-- C4: two edges whose rounded layer-Y pairs agree produce the same channel
key and therefore share the single stored horizontal channel; when both
rounded values are nonnegative integers `a` and `b`, that shared channel Y
equals `(a + b) / 2`, the midpoint of the two ROUNDED layer Y values (not of
the raw layer Y values, which may be fractional). -/
theorem c4_channel_sharing (parsed : ParsedCSV)
    (y1 y2 y3 y4 : JSNum) (e e2 : ChannelEdge) (a b : ℤ)
    (h1 : (channelKey y1 y2, e) ∈ layerEdgePairs parsed)
    (h2 : (channelKey y3 y4, e2) ∈ layerEdgePairs parsed)
    (hr1 : y1.roundJs = y3.roundJs) (hr2 : y2.roundJs = y4.roundJs)
    (hya : y1.roundJs = JSNum.fin (a : ℚ)) (hyb : y2.roundJs = JSNum.fin (b : ℚ))
    (ha : 0 ≤ a) (hb : 0 ≤ b) :
    channelKey y3 y4 = channelKey y1 y2
    ∧ jsGet (horizontalChannelsOf parsed) (channelKey y1 y2)
        = some (JSNum.fin (((a : ℚ) + (b : ℚ)) / 2)) := by
  have hckey : channelKey y1 y2 = intStr a ++ '-' :: intStr b := by
    rw [channelKey, hya, hyb, numToStr_intCast, numToStr_intCast]
  refine ⟨by rw [channelKey, channelKey, ← hr1, ← hr2], ?_⟩
  have hpres := mem_layerEdgePairs_present parsed h1
  rcases Option.isSome_iff_exists.mp hpres with ⟨v, hv⟩
  rw [jsGet_horizontalChannelsOf, hv]
  show some (channelValue (channelKey y1 y2)) = some (JSNum.fin (((a : ℚ) + (b : ℚ)) / 2))
  rw [hckey, channelValue_intKey ha hb]

theorem c4_channel_sharing_witness :
    channelKey (JSNum.fin (202/5)) (JSNum.fin 100) = channelKey (JSNum.fin 40) (JSNum.fin 100)
    ∧ jsGet (horizontalChannelsOf
        (parseCSV "0,A,2,0;0\n1,B,3,200;0.4\n2,C,,0;100\n3,D,,200;100".toList))
      (channelKey (JSNum.fin 40) (JSNum.fin 100)) = some (JSNum.fin 70) := by
  have h := c4_channel_sharing
    (parseCSV "0,A,2,0;0\n1,B,3,200;0.4\n2,C,,0;100\n3,D,,200;100".toList)
    (JSNum.fin 40) (JSNum.fin 100) (JSNum.fin (202/5)) (JSNum.fin 100)
    ⟨JSNum.fin 75, JSNum.fin 75, "2".toList⟩ ⟨JSNum.fin 275, JSNum.fin 275, "3".toList⟩
    40 100
    (by set_option maxRecDepth 100000 in with_unfolding_all decide)
    (by set_option maxRecDepth 100000 in with_unfolding_all decide)
    (by with_unfolding_all decide) (by with_unfolding_all decide)
    (by with_unfolding_all decide) (by with_unfolding_all decide)
    (by decide) (by decide)
  refine ⟨h.1, ?_⟩
  rw [h.2]
  norm_num

theorem c4_counterexample :
    jsGet (horizontalChannelsOf (parseCSV "0,A,1,0;0.4\n1,B,,200;100".toList))
      (channelKey (JSNum.fin (202/5)) (JSNum.fin 100)) = some (JSNum.fin 70)
    ∧ (JSNum.add (JSNum.fin (202/5)) (JSNum.fin 100)).half ≠ JSNum.fin 70 := by
  constructor
  · set_option maxRecDepth 100000 in with_unfolding_all decide
  · with_unfolding_all decide

/-! ## Round-trip support: generic list lemmas -/

theorem mem_of_mem_splitOnChar (sep : Char) (s : Str) :
    ∀ p ∈ splitOnChar sep s, ∀ c ∈ p, c ∈ s := by
  induction s with
  | nil =>
    intro p hp c hc
    rw [splitOnChar] at hp
    rcases List.mem_singleton.mp hp with rfl
    cases hc
  | cons x rest ih =>
    intro p hp c hc
    rw [splitOnChar] at hp
    by_cases hx : x = sep
    · rw [if_pos hx] at hp
      rcases List.mem_cons.mp hp with rfl | hp2
      · cases hc
      · exact List.mem_cons_of_mem x (ih p hp2 c hc)
    · rw [if_neg hx] at hp
      cases hsp : splitOnChar sep rest with
      | nil => exact absurd hsp (splitOnChar_ne_nil sep rest)
      | cons q qs =>
        rw [hsp] at hp
        rcases List.mem_cons.mp hp with rfl | hp2
        · rcases List.mem_cons.mp hc with rfl | hc2
          · exact List.mem_cons_self c rest
          · exact List.mem_cons_of_mem x
              (ih q (by rw [hsp]; exact List.mem_cons_self q qs) c hc2)
        · exact List.mem_cons_of_mem x
            (ih p (by rw [hsp]; exact List.mem_cons_of_mem q hp2) c hc)

theorem getD_mem_or {α : Type} (l : List α) (i : ℕ) (d : α) :
    l.getD i d ∈ l ∨ l.getD i d = d := by
  induction l generalizing i with
  | nil => right; cases i <;> rfl
  | cons a t ih =>
    cases i with
    | zero => left; exact List.mem_cons_self a t
    | succ j =>
      have hstep : (a :: t).getD (j + 1) d = t.getD j d := rfl
      rw [hstep]
      rcases ih j with h | h
      · exact Or.inl (List.mem_cons_of_mem a h)
      · exact Or.inr h

theorem mem_intercalate {α : Type} (sep : List α) (ps : List (List α)) {c : α}
    (h : c ∈ List.intercalate sep ps) : c ∈ sep ∨ ∃ p ∈ ps, c ∈ p := by
  induction ps with
  | nil => simp [List.intercalate] at h
  | cons p ps' ih =>
    cases ps' with
    | nil =>
      rw [intercalate_single] at h
      exact Or.inr ⟨p, List.mem_cons_self p [], h⟩
    | cons q qs =>
      rw [intercalate_cons₂] at h
      rcases List.mem_append.mp h with h1 | h2
      · rcases List.mem_append.mp h1 with ha | hb
        · exact Or.inr ⟨p, List.mem_cons_self p _, ha⟩
        · exact Or.inl hb
      · rcases ih h2 with hs | ⟨r, hr, hcr⟩
        · exact Or.inl hs
        · exact Or.inr ⟨r, List.mem_cons_of_mem p hr, hcr⟩

theorem intercalate_ne_nil {α : Type} (sep : List α) (p : List α) (ps : List (List α))
    (hp : p ≠ []) : List.intercalate sep (p :: ps) ≠ [] := by
  cases ps with
  | nil => rw [intercalate_single]; exact hp
  | cons q qs =>
    rw [intercalate_cons₂]
    intro hcon
    rcases List.append_eq_nil.mp hcon with ⟨h1, _⟩
    rcases List.append_eq_nil.mp h1 with ⟨h2, _⟩
    exact hp h2

theorem head?_intercalate_cons {α : Type} (sep : List α) (p : List α) (ps : List (List α))
    (hp : p ≠ []) : (List.intercalate sep (p :: ps)).head? = p.head? := by
  obtain ⟨a, t, rfl⟩ : ∃ a t, p = a :: t := by
    cases p with
    | nil => exact absurd rfl hp
    | cons a t => exact ⟨a, t, rfl⟩
  cases ps with
  | nil => rw [intercalate_single]
  | cons q qs => rw [intercalate_cons₂]; rfl

theorem getLast?_append_right {α : Type} (l l' : List α) (h : l' ≠ []) :
    (l ++ l').getLast? = l'.getLast? := by
  have h1 : (l ++ l').reverse.head? = l'.reverse.head? := by
    rw [List.reverse_append]
    cases hr : l'.reverse with
    | nil => exact absurd (by simpa using congrArg List.reverse hr) h
    | cons a t => rfl
  rw [List.head?_reverse, List.head?_reverse] at h1
  exact h1

theorem getLast?_intercalate_exists {α : Type} (sep : List α) (ps : List (List α))
    (hne : ps ≠ []) (h : ∀ p ∈ ps, p ≠ []) :
    ∃ p ∈ ps, (List.intercalate sep ps).getLast? = p.getLast? := by
  induction ps with
  | nil => exact absurd rfl hne
  | cons p ps' ih =>
    cases ps' with
    | nil => exact ⟨p, List.mem_cons_self p [], by rw [intercalate_single]⟩
    | cons q qs =>
      have hq : q ≠ [] := h q (List.mem_cons_of_mem p (List.mem_cons_self q qs))
      rcases ih (by simp) (fun r hr => h r (List.mem_cons_of_mem p hr)) with ⟨r, hr, heq⟩
      refine ⟨r, List.mem_cons_of_mem p hr, ?_⟩
      rw [intercalate_cons₂, List.append_assoc]
      rw [getLast?_append_right p _ (by
        intro hcon
        rcases List.append_eq_nil.mp hcon with ⟨_, h2⟩
        exact intercalate_ne_nil sep q qs hq h2)]
      rw [getLast?_append_right sep _ (intercalate_ne_nil sep q qs hq)]
      exact heq

theorem filterMap_congr_some {α β : Type} (f : α → Option β) (g : α → β) :
    ∀ l : List α, (∀ a ∈ l, f a = some (g a)) → l.filterMap f = l.map g := by
  intro l
  induction l with
  | nil => intro _; rfl
  | cons a t ih =>
    intro h
    simp only [List.filterMap_cons, h a (List.mem_cons_self a t), List.map_cons]
    rw [ih (fun b hb => h b (List.mem_cons_of_mem a hb))]

theorem map_id_of_eq {α : Type} (f : α → α) (l : List α) (h : ∀ a ∈ l, f a = a) :
    l.map f = l := by
  induction l with
  | nil => rfl
  | cons a t ih =>
    rw [List.map_cons, h a (List.mem_cons_self a t),
      ih (fun b hb => h b (List.mem_cons_of_mem a hb))]

/-! ## Round-trip support: shape of the fields `parseCSV` produces -/

theorem parseLine_fields {line : Str} {n : TreeNodeData} (h : parseLine line = some n) :
    (trimStr n.id = n.id ∧ ∀ c ∈ n.id, c ≠ ',' ∧ c ∈ line)
    ∧ (trimStr n.label = n.label ∧ ∀ c ∈ n.label, c ≠ ',' ∧ c ∈ line)
    ∧ (∀ t ∈ n.children, t ≠ [] ∧ trimStr t = t ∧
        ∀ c ∈ t, c ≠ ',' ∧ c ≠ ';' ∧ c ∈ line) := by
  rw [parseLine] at h
  by_cases hlen : (splitOnChar ',' line).length < 2
  · rw [if_pos hlen] at h; cases h
  · rw [if_neg hlen] at h
    injection h with hn
    subst hn
    refine ⟨⟨trimStr_trimStr _, ?_⟩, ⟨trimStr_trimStr _, ?_⟩, ?_⟩
    · intro c hc
      have hc0 : c ∈ (splitOnChar ',' line).headD [] := mem_trimStr hc
      have hmem : (splitOnChar ',' line).headD [] ∈ splitOnChar ',' line :=
        headD_mem (splitOnChar_ne_nil ',' line) []
      exact ⟨fun he => splitOnChar_not_mem ',' line _ hmem (he ▸ hc0),
             mem_of_mem_splitOnChar ',' line _ hmem c hc0⟩
    · intro c hc
      have hc0 : c ∈ (splitOnChar ',' line).getD 1 [] := mem_trimStr hc
      rcases getD_mem_or (splitOnChar ',' line) 1 [] with hmem | hnil
      · exact ⟨fun he => splitOnChar_not_mem ',' line _ hmem (he ▸ hc0),
               mem_of_mem_splitOnChar ',' line _ hmem c hc0⟩
      · rw [hnil] at hc0; cases hc0
    · intro t ht
      have ht' : t ∈ (if (trimStr ((splitOnChar ',' line).getD 2 [])).isEmpty
          then ([] : List Str)
          else ((splitOnChar ';' (trimStr ((splitOnChar ',' line).getD 2 []))).map
            trimStr).filter (fun s => !s.isEmpty)) := ht
      by_cases hemp : (trimStr ((splitOnChar ',' line).getD 2 [])).isEmpty
      · rw [if_pos hemp] at ht'
        cases ht'
      · rw [if_neg hemp] at ht'
        rcases List.mem_filter.mp ht' with ⟨hmap, hne⟩
        rcases List.mem_map.mp hmap with ⟨u, hu, rfl⟩
        refine ⟨?_, trimStr_trimStr u, ?_⟩
        · intro hnil2
          rw [hnil2] at hne
          simp at hne
        · intro c hc
          have hcu : c ∈ u := mem_trimStr hc
          have hc2 : c ∈ trimStr ((splitOnChar ',' line).getD 2 []) :=
            mem_of_mem_splitOnChar ';' _ u hu c hcu
          have hc3 : c ∈ (splitOnChar ',' line).getD 2 [] := mem_trimStr hc2
          have hsemi : c ≠ ';' := fun he => splitOnChar_not_mem ';' _ u hu (he ▸ hcu)
          rcases getD_mem_or (splitOnChar ',' line) 2 [] with hmem | hnil
          · exact ⟨fun he => splitOnChar_not_mem ',' line _ hmem (he ▸ hc3), hsemi,
                   mem_of_mem_splitOnChar ',' line _ hmem c hc3⟩
          · rw [hnil] at hc3; cases hc3

theorem parseCSV_fields {text : Str} {n : TreeNodeData} (h : n ∈ (parseCSV text).nodes) :
    (trimStr n.id = n.id ∧ ∀ c ∈ n.id, c ≠ ',' ∧ c ≠ '\n')
    ∧ (trimStr n.label = n.label ∧ ∀ c ∈ n.label, c ≠ ',' ∧ c ≠ '\n')
    ∧ (∀ t ∈ n.children, t ≠ [] ∧ trimStr t = t ∧
        ∀ c ∈ t, c ≠ ',' ∧ c ≠ ';' ∧ c ≠ '\n') := by
  have hmem : n ∈ (splitOnChar '\n' (trimStr text)).filterMap parseLine := h
  rcases List.mem_filterMap.mp hmem with ⟨line, hline, hpl⟩
  have hnl : ∀ c ∈ line, c ≠ '\n' := by
    intro c hc he
    exact splitOnChar_not_mem '\n' (trimStr text) line hline (he ▸ hc)
  rcases parseLine_fields hpl with ⟨⟨hid1, hid2⟩, ⟨hl1, hl2⟩, hch⟩
  refine ⟨⟨hid1, ?_⟩, ⟨hl1, ?_⟩, ?_⟩
  · intro c hc
    exact ⟨(hid2 c hc).1, hnl c (hid2 c hc).2⟩
  · intro c hc
    exact ⟨(hl2 c hc).1, hnl c (hl2 c hc).2⟩
  · intro t ht
    rcases hch t ht with ⟨hq1, hq2, hq3⟩
    refine ⟨hq1, hq2, ?_⟩
    intro c hc
    exact ⟨(hq3 c hc).1, (hq3 c hc).2.1, hnl c (hq3 c hc).2.2⟩

/-! ## Round-trip support: the serialized children cell -/

/-- The children cell `serializeToCSV` writes for a node id, as derived from
the edge list. -/
def derivedChildren (parsed : ParsedCSV) (id : Str) : List Str :=
  ((flowEdgesOf parsed).filter (fun e => e.source = id)).map (fun e => e.target)

theorem flowEdge_target_child {parsed : ParsedCSV} {e : FlowEdge}
    (h : e ∈ flowEdgesOf parsed) :
    ∃ n ∈ parsed.nodes, e.source = n.id ∧ e.target ∈ n.children := by
  rw [flowEdgesOf] at h
  rcases List.mem_flatten.mp h with ⟨l, hl, hel⟩
  rcases List.mem_map.mp hl with ⟨node, hnode, rfl⟩
  rcases List.mem_map.mp hel with ⟨c, hc, rfl⟩
  exact ⟨node, hnode, rfl, hc⟩

theorem filter_pairs_eq (edges : List FlowEdge) (id : Str) :
    ((edges.map (fun e => (e.source, e.target))).filter (fun p => p.1 = id)).map
      (fun p => p.2)
      = (edges.filter (fun e => e.source = id)).map (fun e => e.target) := by
  induction edges with
  | nil => rfl
  | cons e t ih =>
    by_cases he : e.source = id
    · simp [List.filter_cons, he, ih]
    · simp [List.filter_cons, he, ih]

theorem childrenStr_eq (parsed : ParsedCSV) (id : Str) :
    (match jsGet (jsGroup ((flowEdgesOf parsed).map (fun e => (e.source, e.target)))) id with
     | none => ([] : Str)
     | some cs => List.intercalate [';'] cs)
    = List.intercalate [';'] (derivedChildren parsed id) := by
  rw [jsGet_jsGroup]
  by_cases hemp : (((flowEdgesOf parsed).map (fun e => (e.source, e.target))).filter
      (fun p => p.1 = id)).isEmpty
  · rw [if_pos hemp]
    have hnil : derivedChildren parsed id = [] := by
      rw [derivedChildren, ← filter_pairs_eq]
      rw [List.isEmpty_iff] at hemp
      rw [hemp]
      rfl
    rw [hnil]
    rfl
  · rw [if_neg hemp]
    show List.intercalate [';']
        ((((flowEdgesOf parsed).map (fun e => (e.source, e.target))).filter
          (fun p => p.1 = id)).map (fun p => p.2)) = _
    rw [filter_pairs_eq]
    rfl

/-! ## Round-trip support: whitespace shape of serialized pieces -/

theorem trimStr_intercalate (cs : List Str) (h : ∀ t ∈ cs, t ≠ [] ∧ trimStr t = t) :
    trimStr (List.intercalate [';'] cs) = List.intercalate [';'] cs := by
  cases cs with
  | nil => rfl
  | cons t ts =>
    apply trimStr_eq_self
    · rw [head?_intercalate_cons [';'] t ts (h t (List.mem_cons_self t ts)).1]
      intro c hc
      rw [← (h t (List.mem_cons_self t ts)).2] at hc
      exact trimStr_head_not_ws t c hc
    · rcases getLast?_intercalate_exists [';'] (t :: ts) (by simp)
        (fun p hp => (h p hp).1) with ⟨p, hp, heq⟩
      rw [heq]
      intro c hc
      rw [← (h p hp).2] at hc
      exact trimStr_last_not_ws p c hc

theorem posStr_head_not_ws (zx zy : ℤ) :
    ∀ c ∈ (intStr zx ++ ';' :: intStr zy).head?, isJsWs c = false := by
  intro c hc
  cases hi : intStr zx with
  | nil => exact absurd hi (intStr_ne_nil zx)
  | cons a t =>
    rw [hi] at hc
    injection hc with e
    have ha : a ∈ intStr zx := by rw [hi]; exact List.mem_cons_self a t
    rw [← e]
    rcases intStr_chars zx a ha with hd | hd
    · exact digit_not_ws hd
    · rw [hd]; decide

theorem posStr_getLast_not_ws (zx zy : ℤ) :
    ∀ c ∈ (intStr zx ++ ';' :: intStr zy).getLast?, isJsWs c = false := by
  intro c hc
  have he : intStr zx ++ ';' :: intStr zy = (intStr zx ++ [';']) ++ intStr zy := by simp
  rw [he, getLast?_append_right _ _ (intStr_ne_nil zy)] at hc
  have hmem : c ∈ intStr zy := mem_of_getLast?_eq hc
  rcases intStr_chars zy c hmem with hd | hd
  · exact digit_not_ws hd
  · rw [hd]; decide

theorem parsePos_intPair (zx zy : ℤ) :
    parsePos (some (intStr zx ++ ';' :: intStr zy)) =
      some (JSNum.fin (zx : ℚ), JSNum.fin (zy : ℚ)) := by
  have hsp : splitOnChar ';' (intStr zx ++ ';' :: intStr zy) = [intStr zx, intStr zy] := by
    rw [splitOnChar_append_sep ';' _ _ (intStr_not_mem (by decide) (by decide)),
        splitOnChar_no_sep ';' _ (intStr_not_mem (by decide) (by decide))]
  have htrim : trimStr (intStr zx ++ ';' :: intStr zy) = intStr zx ++ ';' :: intStr zy :=
    trimStr_eq_self (posStr_head_not_ws zx zy) (posStr_getLast_not_ws zx zy)
  have hnenil : intStr zx ++ ';' :: intStr zy ≠ [] := by
    cases hi : intStr zx with
    | nil => exact absurd hi (intStr_ne_nil zx)
    | cons a t => simp
  have hx : posXOf (intStr zx ++ ';' :: intStr zy) = JSNum.fin (zx : ℚ) := by
    rw [posXOf, hsp]
    exact parseFloat_intStr zx
  have hy : posYOf (intStr zx ++ ';' :: intStr zy) = JSNum.fin (zy : ℚ) := by
    rw [posYOf, hsp]
    exact parseFloat_intStr zy
  rw [parsePos]
  rw [htrim]
  rw [if_neg (by rw [List.isEmpty_iff]; exact hnenil)]
  rw [if_pos (by rw [hx, hy]; rfl)]
  rw [hx, hy]

/-! ## Round-trip support: parsing one serialized line -/

theorem parseLine_serialized (id label : Str) (cs : List Str) (zx zy : ℤ)
    (hid_t : trimStr id = id) (hid_c : ',' ∉ id)
    (hlab_t : trimStr label = label) (hlab_c : ',' ∉ label)
    (hcs : ∀ t ∈ cs, t ≠ [] ∧ trimStr t = t ∧ ';' ∉ t ∧ ',' ∉ t) :
    parseLine (id ++ ',' :: (label ++ ',' :: (List.intercalate [';'] cs ++ ',' ::
      (intStr zx ++ ';' :: intStr zy)))) =
      some { id := id, label := label, children := cs,
             position := some (JSNum.fin (zx : ℚ), JSNum.fin (zy : ℚ)) } := by
  have hch_c : ',' ∉ List.intercalate [';'] cs := by
    intro hc
    rcases mem_intercalate [';'] cs hc with hs | ⟨p, hp, hcp⟩
    · simp at hs
    · exact (hcs p hp).2.2.2 hcp
  have hpos_c : ',' ∉ intStr zx ++ ';' :: intStr zy := by
    intro hc
    rcases List.mem_append.mp hc with h1 | h2
    · exact intStr_not_mem (by decide) (by decide) h1
    · rcases List.mem_cons.mp h2 with he | h3
      · exact absurd he (by decide)
      · exact intStr_not_mem (by decide) (by decide) h3
  have hsplit : splitOnChar ',' (id ++ ',' :: (label ++ ',' ::
      (List.intercalate [';'] cs ++ ',' :: (intStr zx ++ ';' :: intStr zy))))
      = [id, label, List.intercalate [';'] cs, intStr zx ++ ';' :: intStr zy] := by
    rw [splitOnChar_append_sep ',' _ _ hid_c, splitOnChar_append_sep ',' _ _ hlab_c,
        splitOnChar_append_sep ',' _ _ hch_c, splitOnChar_no_sep ',' _ hpos_c]
  rw [parseLine, hsplit]
  rw [if_neg (by simp)]
  have hid_e : trimStr ([id, label, List.intercalate [';'] cs,
      intStr zx ++ ';' :: intStr zy].headD []) = id := hid_t
  have hlab_e : trimStr ([id, label, List.intercalate [';'] cs,
      intStr zx ++ ';' :: intStr zy].getD 1 []) = label := hlab_t
  have hch_e : trimStr ([id, label, List.intercalate [';'] cs,
      intStr zx ++ ';' :: intStr zy].getD 2 []) = List.intercalate [';'] cs :=
    trimStr_intercalate cs (fun t ht => ⟨(hcs t ht).1, (hcs t ht).2.1⟩)
  have hpos_e : ([id, label, List.intercalate [';'] cs,
      intStr zx ++ ';' :: intStr zy].drop 3).head? = some (intStr zx ++ ';' :: intStr zy) := rfl
  have hchildren : (if (trimStr ([id, label, List.intercalate [';'] cs,
        intStr zx ++ ';' :: intStr zy].getD 2 [])).isEmpty then ([] : List Str)
      else ((splitOnChar ';' (trimStr ([id, label, List.intercalate [';'] cs,
        intStr zx ++ ';' :: intStr zy].getD 2 []))).map trimStr).filter
          (fun s => !s.isEmpty)) = cs := by
    rw [hch_e]
    cases hc : cs with
    | nil => rfl
    | cons t ts =>
      rw [if_neg (by
        rw [List.isEmpty_iff]
        exact intercalate_ne_nil [';'] t ts (hcs t (by rw [hc]; exact List.mem_cons_self t ts)).1)]
      rw [splitOnChar_intercalate ';' (t :: ts) (by simp)
        (fun p hp => (hcs p (by rw [hc]; exact hp)).2.2.1)]
      rw [map_id_of_eq trimStr (t :: ts)
        (fun p hp => (hcs p (by rw [hc]; exact hp)).2.1)]
      rw [List.filter_eq_self.mpr]
      intro a ha
      have hane : a ≠ [] := (hcs a (by rw [hc]; exact ha)).1
      cases a with
      | nil => exact absurd rfl hane
      | cons x xs => rfl
  simp only [hid_e, hlab_e, hchildren, hpos_e, parsePos_intPair]

/-! ## Round-trip support: the serialized line of a node -/

/-- The children cell of a serialized line (the `childrenMap` lookup of
`serializeToCSV`, instantiated with the layout edge list). -/
def childrenCell (parsed : ParsedCSV) (id : Str) : Str :=
  match jsGet (jsGroup ((flowEdgesOf parsed).map (fun e => (e.source, e.target)))) id with
  | none => []
  | some cs => List.intercalate [';'] cs

theorem childrenCell_eq (parsed : ParsedCSV) (id : Str) :
    childrenCell parsed id = List.intercalate [';'] (derivedChildren parsed id) :=
  childrenStr_eq parsed id

/-- The single CSV line `serializeToCSV` emits for one node in explicit mode. -/
def serializedLineOf (parsed : ParsedCSV) (n : TreeNodeData) : Str :=
  n.id ++ ',' :: n.label ++ ',' :: childrenCell parsed n.id ++ ',' ::
    (numToStr (n.position.getD (JSNum.nan, JSNum.nan)).1.roundJs ++ ';' ::
     numToStr (n.position.getD (JSNum.nan, JSNum.nan)).2.roundJs)

theorem serialize_explicit (parsed : ParsedCSV) :
    serializeToCSV (explicitFlowNodes parsed) (flowEdgesOf parsed)
      = List.intercalate ['\n'] (parsed.nodes.map (serializedLineOf parsed)) := by
  simp only [serializeToCSV, explicitFlowNodes, List.map_map]
  rfl

theorem parseCSV_nodes (content : Str) :
    (parseCSV content).nodes = (splitOnChar '\n' (trimStr content)).filterMap parseLine := rfl

theorem line_head_not_ws (id r : Str) (hid : trimStr id = id) :
    ∀ c ∈ (id ++ ',' :: r).head?, isJsWs c = false := by
  cases id with
  | nil =>
    intro c hc
    injection hc with e
    subst e
    decide
  | cons a t =>
    intro c hc
    injection hc with e
    subst e
    have hhead := trimStr_head_not_ws (a :: t)
    rw [hid] at hhead
    exact hhead a rfl

theorem getLast?_line (id label ch posStr : Str) (h : posStr ≠ []) :
    (id ++ ',' :: (label ++ ',' :: (ch ++ ',' :: posStr))).getLast? = posStr.getLast? := by
  have he : id ++ ',' :: (label ++ ',' :: (ch ++ ',' :: posStr))
      = (id ++ ',' :: (label ++ ',' :: (ch ++ [',']))) ++ posStr := by
    simp
  rw [he, getLast?_append_right _ _ h]

theorem finitePos_of_all {parsed : ParsedCSV} {n : TreeNodeData}
    (hall : parsed.nodes.all (fun m => match m.position with
      | some (JSNum.fin _, JSNum.fin _) => true
      | _ => false) = true)
    (hn : n ∈ parsed.nodes) :
    ∃ qx qy : ℚ, n.position = some (JSNum.fin qx, JSNum.fin qy) := by
  rw [List.all_eq_true] at hall
  have h1 : (match n.position with
    | some (JSNum.fin _, JSNum.fin _) => true
    | _ => false) = true := hall n hn
  rcases hp : n.position with _ | ⟨x, y⟩
  · rw [hp] at h1
    exact Bool.noConfusion h1
  · rw [hp] at h1
    cases x with
    | fin qx =>
      cases y with
      | fin qy => exact ⟨qx, qy, rfl⟩
      | nan => exact Bool.noConfusion h1
      | posInf => exact Bool.noConfusion h1
      | negInf => exact Bool.noConfusion h1
    | nan => exact Bool.noConfusion h1
    | posInf => exact Bool.noConfusion h1
    | negInf => exact Bool.noConfusion h1

theorem filterMap_map_congr_some {α β γ : Type} (g : α → β) (f : β → Option γ) (h : α → γ)
    (l : List α) (hfg : ∀ a ∈ l, f (g a) = some (h a)) :
    (l.map g).filterMap f = l.map h := by
  induction l with
  | nil => rfl
  | cons a t ih =>
    simp only [List.map_cons, List.filterMap_cons, hfg a (List.mem_cons_self a t)]
    rw [ih (fun b hb => hfg b (List.mem_cons_of_mem a hb))]

theorem serializedLineOf_facts (text : Str) (n : TreeNodeData)
    (hn : n ∈ (parseCSV text).nodes) (qx qy : ℚ)
    (hp : n.position = some (JSNum.fin qx, JSNum.fin qy)) :
    parseLine (serializedLineOf (parseCSV text) n)
      = some { id := n.id, label := n.label,
               children := derivedChildren (parseCSV text) n.id,
               position := n.position.map (fun p => (p.1.roundJs, p.2.roundJs)) }
    ∧ (∀ c ∈ serializedLineOf (parseCSV text) n, c ≠ '\n')
    ∧ (∀ c ∈ (serializedLineOf (parseCSV text) n).head?, isJsWs c = false)
    ∧ (∀ c ∈ (serializedLineOf (parseCSV text) n).getLast?, isJsWs c = false)
    ∧ serializedLineOf (parseCSV text) n ≠ [] := by
  rcases parseCSV_fields hn with ⟨⟨hid1, hid2⟩, ⟨hl1, hl2⟩, _⟩
  have hpx : (n.position.getD (JSNum.nan, JSNum.nan)).1 = JSNum.fin qx := by rw [hp]; rfl
  have hpy : (n.position.getD (JSNum.nan, JSNum.nan)).2 = JSNum.fin qy := by rw [hp]; rfl
  have hcs : ∀ t ∈ derivedChildren (parseCSV text) n.id,
      t ≠ [] ∧ trimStr t = t ∧ ';' ∉ t ∧ ',' ∉ t ∧ '\n' ∉ t := by
    intro t ht
    rcases List.mem_map.mp ht with ⟨e, he, rfl⟩
    have he2 : e ∈ flowEdgesOf (parseCSV text) := List.mem_of_mem_filter he
    rcases flowEdge_target_child he2 with ⟨m, hm, _, hchild⟩
    rcases (parseCSV_fields hm).2.2 e.target hchild with ⟨hq1, hq2, hq3⟩
    exact ⟨hq1, hq2, fun hmm => (hq3 _ hmm).2.1 rfl, fun hmm => (hq3 _ hmm).1 rfl,
           fun hmm => (hq3 _ hmm).2.2 rfl⟩
  have hline : serializedLineOf (parseCSV text) n
      = n.id ++ ',' :: (n.label ++ ',' :: (List.intercalate [';']
          (derivedChildren (parseCSV text) n.id) ++ ',' ::
        (intStr ⌊qx + 1/2⌋ ++ ';' :: intStr ⌊qy + 1/2⌋))) := by
    rw [serializedLineOf, childrenCell_eq, hpx, hpy,
        show (JSNum.fin qx).roundJs = JSNum.fin ((⌊qx + 1/2⌋ : ℤ) : ℚ) from rfl,
        show (JSNum.fin qy).roundJs = JSNum.fin ((⌊qy + 1/2⌋ : ℤ) : ℚ) from rfl,
        numToStr_intCast, numToStr_intCast]
    simp only [List.append_assoc, List.cons_append]
  have hposne : intStr ⌊qx + 1/2⌋ ++ ';' :: intStr ⌊qy + 1/2⌋ ≠ [] := by
    cases hi : intStr ⌊qx + 1/2⌋ with
    | nil => exact absurd hi (intStr_ne_nil _)
    | cons a t => simp
  refine ⟨?_, ?_, ?_, ?_, ?_⟩
  · rw [hline, parseLine_serialized n.id n.label _ ⌊qx + 1/2⌋ ⌊qy + 1/2⌋ hid1
      (fun hm => (hid2 ',' hm).1 rfl) hl1 (fun hm => (hl2 ',' hm).1 rfl)
      (fun t ht => ⟨(hcs t ht).1, (hcs t ht).2.1, (hcs t ht).2.2.1, (hcs t ht).2.2.2.1⟩)]
    rw [hp]
    rfl
  · intro c hc hne
    subst hne
    rw [hline] at hc
    rcases List.mem_append.mp hc with h1 | h2
    · exact (hid2 '\n' h1).2 rfl
    rcases List.mem_cons.mp h2 with he | h3
    · exact absurd he (by decide)
    rcases List.mem_append.mp h3 with h4 | h5
    · exact (hl2 '\n' h4).2 rfl
    rcases List.mem_cons.mp h5 with he | h6
    · exact absurd he (by decide)
    rcases List.mem_append.mp h6 with h7 | h8
    · rcases mem_intercalate [';'] _ h7 with hs | ⟨t, ht, hct⟩
      · simp at hs
      · exact (hcs t ht).2.2.2.2 hct
    rcases List.mem_cons.mp h8 with he | h9
    · exact absurd he (by decide)
    rcases List.mem_append.mp h9 with h10 | h11
    · exact intStr_not_mem (by decide) (by decide) h10
    rcases List.mem_cons.mp h11 with he | h12
    · exact absurd he (by decide)
    · exact intStr_not_mem (by decide) (by decide) h12
  · have hh := line_head_not_ws n.id (n.label ++ ',' :: (List.intercalate [';']
        (derivedChildren (parseCSV text) n.id) ++ ',' ::
        (intStr ⌊qx + 1/2⌋ ++ ';' :: intStr ⌊qy + 1/2⌋))) hid1
    rw [← hline] at hh
    exact hh
  · intro c hc
    rw [hline, getLast?_line n.id n.label _ _ hposne] at hc
    exact posStr_getLast_not_ws ⌊qx + 1/2⌋ ⌊qy + 1/2⌋ c hc
  · rw [hline]
    intro hcon
    rcases List.append_eq_nil.mp hcon with ⟨_, hq⟩
    cases hq

theorem roundTrip_nodes (text : Str)
    (hpos : (parseCSV text).nodes.all (fun m => match m.position with
      | some (JSNum.fin _, JSNum.fin _) => true
      | _ => false) = true) :
    (parseCSV (serializeToCSV (calcFlowNodes (parseCSV text))
        (flowEdgesOf (parseCSV text)))).nodes
      = (parseCSV text).nodes.map (fun n =>
          { id := n.id, label := n.label,
            children := derivedChildren (parseCSV text) n.id,
            position := n.position.map (fun p => (p.1.roundJs, p.2.roundJs)) }) := by
  have hexp : hasExplicitPositions (parseCSV text) = true := by
    rw [hasExplicitPositions, List.all_eq_true]
    intro n hn
    rcases finitePos_of_all hpos hn with ⟨qx, qy, hp⟩
    rw [hp]
    rfl
  have hlineFacts : ∀ n ∈ (parseCSV text).nodes,
      parseLine (serializedLineOf (parseCSV text) n)
        = some { id := n.id, label := n.label,
                 children := derivedChildren (parseCSV text) n.id,
                 position := n.position.map (fun p => (p.1.roundJs, p.2.roundJs)) }
      ∧ (∀ c ∈ serializedLineOf (parseCSV text) n, c ≠ '\n')
      ∧ (∀ c ∈ (serializedLineOf (parseCSV text) n).head?, isJsWs c = false)
      ∧ (∀ c ∈ (serializedLineOf (parseCSV text) n).getLast?, isJsWs c = false)
      ∧ serializedLineOf (parseCSV text) n ≠ [] := by
    intro n hn
    rcases finitePos_of_all hpos hn with ⟨qx, qy, hp⟩
    exact serializedLineOf_facts text n hn qx qy hp
  rw [calcFlowNodes, if_pos hexp, serialize_explicit]
  cases hns : (parseCSV text).nodes with
  | nil => rfl
  | cons n1 rest =>
    have hmemlines : ∀ l ∈ (n1 :: rest).map (serializedLineOf (parseCSV text)),
        ∃ n ∈ (parseCSV text).nodes, l = serializedLineOf (parseCSV text) n := by
      intro l hl
      rcases List.mem_map.mp hl with ⟨n, hn, rfl⟩
      exact ⟨n, by rw [hns]; exact hn, rfl⟩
    have hn1 : n1 ∈ (parseCSV text).nodes := by
      rw [hns]; exact List.mem_cons_self n1 rest
    have htrim : trimStr (List.intercalate ['\n']
        ((n1 :: rest).map (serializedLineOf (parseCSV text))))
        = List.intercalate ['\n'] ((n1 :: rest).map (serializedLineOf (parseCSV text))) := by
      apply trimStr_eq_self
      · rw [List.map_cons,
          head?_intercalate_cons ['\n'] _ _ ((hlineFacts n1 hn1).2.2.2.2)]
        exact (hlineFacts n1 hn1).2.2.1
      · rcases getLast?_intercalate_exists ['\n']
          ((n1 :: rest).map (serializedLineOf (parseCSV text))) (by simp)
          (fun l hl => by
            rcases hmemlines l hl with ⟨n, hn, rfl⟩
            exact (hlineFacts n hn).2.2.2.2) with ⟨l, hl, heq⟩
        rw [heq]
        rcases hmemlines l hl with ⟨n, hn, rfl⟩
        exact (hlineFacts n hn).2.2.2.1
    rw [parseCSV_nodes, htrim, splitOnChar_intercalate '\n' _ (by simp)
      (fun l hl => by
        rcases hmemlines l hl with ⟨n, hn, rfl⟩
        intro hcon
        exact ((hlineFacts n hn).2.1 '\n' hcon) rfl)]
    exact filterMap_map_congr_some (serializedLineOf (parseCSV text)) parseLine
      (fun n => { id := n.id, label := n.label,
                  children := derivedChildren (parseCSV text) n.id,
                  position := n.position.map (fun p => (p.1.roundJs, p.2.roundJs)) })
      (n1 :: rest)
      (fun n hn => (hlineFacts n (by rw [hns]; exact hn)).1)

/-- C1: round-trip.  If every record of the input parses with a finite
explicit position, then parsing the serialization of the computed layout
reproduces record-for-record the same ids and labels, gives every
reparsed record exactly the children derived for its id from the layout
edge list, and stores the integer-rounded original positions. -/
theorem c1_round_trip (text : Str)
    (hpos : (parseCSV text).nodes.all (fun m => match m.position with
      | some (JSNum.fin _, JSNum.fin _) => true
      | _ => false) = true) :
    ((parseCSV (serializeToCSV (calcFlowNodes (parseCSV text))
        (flowEdgesOf (parseCSV text)))).nodes.map (fun n => (n.id, n.label))
      = (parseCSV text).nodes.map (fun n => (n.id, n.label)))
    ∧ (∀ n2 ∈ (parseCSV (serializeToCSV (calcFlowNodes (parseCSV text))
        (flowEdgesOf (parseCSV text)))).nodes,
        n2.children = derivedChildren (parseCSV text) n2.id)
    ∧ ((parseCSV (serializeToCSV (calcFlowNodes (parseCSV text))
        (flowEdgesOf (parseCSV text)))).nodes.map (fun n => n.position)
      = (parseCSV text).nodes.map (fun n =>
          n.position.map (fun p => (p.1.roundJs, p.2.roundJs)))) := by
  refine ⟨?_, ?_, ?_⟩
  · rw [roundTrip_nodes text hpos, List.map_map]
    rfl
  · intro n2 hmem
    rw [roundTrip_nodes text hpos] at hmem
    rcases List.mem_map.mp hmem with ⟨n, hn, rfl⟩
    rfl
  · rw [roundTrip_nodes text hpos, List.map_map]
    rfl

theorem c1_round_trip_witness :
    ((parseCSV (serializeToCSV (calcFlowNodes (parseCSV "0,R,1,0;0\n1,F,,10.6;-20.2".toList))
        (flowEdgesOf (parseCSV "0,R,1,0;0\n1,F,,10.6;-20.2".toList)))).nodes.map
          (fun n => (n.id, n.label))
      = (parseCSV "0,R,1,0;0\n1,F,,10.6;-20.2".toList).nodes.map (fun n => (n.id, n.label)))
    ∧ (∀ n2 ∈ (parseCSV (serializeToCSV
        (calcFlowNodes (parseCSV "0,R,1,0;0\n1,F,,10.6;-20.2".toList))
        (flowEdgesOf (parseCSV "0,R,1,0;0\n1,F,,10.6;-20.2".toList)))).nodes,
        n2.children = derivedChildren (parseCSV "0,R,1,0;0\n1,F,,10.6;-20.2".toList) n2.id)
    ∧ ((parseCSV (serializeToCSV (calcFlowNodes (parseCSV "0,R,1,0;0\n1,F,,10.6;-20.2".toList))
        (flowEdgesOf (parseCSV "0,R,1,0;0\n1,F,,10.6;-20.2".toList)))).nodes.map
          (fun n => n.position)
      = (parseCSV "0,R,1,0;0\n1,F,,10.6;-20.2".toList).nodes.map (fun n =>
          n.position.map (fun p => (p.1.roundJs, p.2.roundJs)))) :=
  c1_round_trip "0,R,1,0;0\n1,F,,10.6;-20.2".toList
    (by set_option maxRecDepth 100000 in with_unfolding_all decide)
